import Mathlib

/-!
Verification of the CPU token-generation search core (`src/search.cpp` of the
onnxruntime-genai repository) against its natural-language specification.

The development shallowly embeds the C++ code over exact rational scores:

* score buffers (`float*` spans of shape `[batch_beam, vocab]`) become
  `List (List ℚ)` (one inner list per batch-beam row), or a flat `List ℚ`
  where the source manipulates a flat span (beam top-2k selection);
* the per-row greedy/sampling search state (`next_tokens_`, `eos_seen_`,
  `not_done_count_`, `done_`, and the `Sequences` token store) becomes the
  structure `GreedyState`;
* `std::mt19937` draws are abstracted as explicit function parameters
  (`pick`, `threshold`), and the out-of-`src` `SoftMax` helper as an explicit
  function parameter `sfn`, so each theorem quantifies over them;
* `std::priority_queue` (used by `BeamSearch_Cpu::SelectTop`) is embedded by
  transcribing the binary-heap algorithms of libstdc++ (`__push_heap`,
  `__adjust_heap`, `__pop_heap` from `bits/stl_heap.h`), which is the
  de-facto semantics of the comparator-only `ScoreIndex` ordering that the
  source relies on.

Token ids are embedded as `ℤ` (the source uses `int32_t`).
-/

namespace SearchCpu

/-! ### Parameters

`GeneratorParams` fields consumed by `search.cpp`.  `BatchBeamSize()` is
`batch_size * num_beams`. -/

structure Params where
  batchSize : ℕ
  numBeams : ℕ
  vocabSize : ℕ
  maxLength : ℕ
  minLength : ℕ
  eosTokenId : ℤ
  padTokenId : ℤ
  repetitionPenalty : ℚ
  numReturnSequences : ℕ
deriving DecidableEq, Repr

def Params.batchBeamSize (p : Params) : ℕ := p.batchSize * p.numBeams

/-! ### Greedy / speculative search state

State owned by `GreedySearch_Cpu` (also used by `SpeculativeGreedySearch_Cpu`,
which derives from it): `next_tokens_`, `eos_seen_`, `not_done_count_`,
`done_`, plus the `Sequences` store.

The `Sequences` class itself is not under `src/`; its operations are
modelled from the spec (section 4.1): the store is a rectangular buffer of
rows, each row holding the meaningful prefix `[0, ℓ)`; `append` writes one
token at position ℓ of every row and increments ℓ; `drop_last(n)` truncates
ℓ by n.  `not_done_count_` starts at `batch_size` (one live row per batch
entry) and is a C++ `int`, hence embedded as `ℤ` (it can go negative). -/

structure GreedyState where
  nextTokens : List ℤ
  eosSeen : List Bool
  notDoneCount : ℤ
  done : Bool
  rows : List (List ℤ)
  len : ℕ
deriving DecidableEq, Repr

/-- Modelled from the spec: `Sequences::AppendNextTokenToSequences` (spec 4.1
`append`): for each row r, write `next_tokens[r]` at position ℓ, then ℓ ← ℓ+1. -/
def seqAppend (st : GreedyState) : GreedyState :=
  { st with
    rows := (st.rows.zip st.nextTokens).map (fun rt => rt.1 ++ [rt.2])
    len := st.len + 1 }

/-- Embeds `GreedySearch_Cpu::SetNextToken` (`search.cpp:242-252`): record the
token; on EOS mark the row, decrement `not_done_count_` and set `done_` when
the counter hits zero. -/
def setNextToken (p : Params) (st : GreedyState) (batchId : ℕ) (token : ℤ) : GreedyState :=
  let st1 := { st with nextTokens := st.nextTokens.set batchId token }
  if token = p.eosTokenId then
    { st1 with
      eosSeen := st1.eosSeen.set batchId true
      notDoneCount := st1.notDoneCount - 1
      done := if st1.notDoneCount - 1 = 0 then true else st1.done }
  else st1

/-- Embeds `GreedySearch_Cpu::PadIfAlreadyEOS` (`search.cpp:232-240`): if the
row already saw EOS, write the pad token and report `true`. -/
def padIfAlreadyEOS (p : Params) (st : GreedyState) (batchId : ℕ) : Bool × GreedyState :=
  if st.eosSeen.getD batchId false then
    (true, { st with nextTokens := st.nextTokens.set batchId p.padTokenId })
  else (false, st)

/-- Embeds `GreedySearch_Cpu::AppendNextTokensToSequences` (`search.cpp:254-262`):
append the chosen tokens and set `done_` once the sequence reaches
`max_length`. -/
def appendNextTokensToSequences (p : Params) (st : GreedyState) : GreedyState :=
  let st1 := seqAppend st
  if st1.len = p.maxLength then { st1 with done := true } else st1

/-! ### Greedy argmax (claim C7)

`GreedySearch_Cpu::SelectTop` (`search.cpp:144-157`) computes
`std::distance(scores.begin(), std::max_element(scores.begin(), scores.end()))`
per row.  `std::max_element` keeps the first iterator whose value every later
element fails to exceed strictly, i.e. the lowest index attaining the
maximum.  `argmaxAux` is the direct transcription of its loop: `best` is the
current largest position, `bv` its value, `cur` the position being visited. -/

def argmaxAux : List ℚ → ℕ → ℚ → ℕ → ℕ
  | [], best, _, _ => best
  | s :: rest, best, bv, cur =>
    if bv < s then argmaxAux rest cur s (cur + 1) else argmaxAux rest best bv (cur + 1)

/-- Embeds the per-row greedy selection `argmax` (`search.cpp:151-152`); for an
empty row `max_element` returns `end`, i.e. index 0 here. -/
def argmaxIdx : List ℚ → ℕ
  | [] => 0
  | x :: xs => argmaxAux xs 0 x 1

/-- Embeds `GreedySearch_Cpu::SelectTop` (`search.cpp:144-157`): per batch row,
skip rows that already saw EOS (padding them), otherwise pick the argmax
token; then append to the sequences. -/
def greedySelectTop (p : Params) (scores : List (List ℚ)) (st : GreedyState) : GreedyState :=
  appendNextTokensToSequences p <|
    (List.range p.batchSize).foldl
      (fun s b =>
        let pr := padIfAlreadyEOS p s b
        if pr.1 then pr.2
        else setNextToken p pr.2 b (argmaxIdx (scores.getD b []) : ℤ))
      st

/-! ### Min-length masking (claim C3)

`Search_Cpu::ApplyMinLength` (`search.cpp:400-410`).  The score domain here is
`WithBot ℚ`: the spec's data model says scores are 32-bit floats with `−∞`
permitted as a mask sentinel, and `⊥` embeds that sentinel.  The source writes
`std::numeric_limits<float>::lowest()`, the most negative *finite* float
`-(2 - 2^-23)·2^127 = -(2^24 - 1)·2^104`, which is `floatLowest` below — not
`−∞`. -/

/-- Exact rational value of `std::numeric_limits<float>::lowest()`. -/
def floatLowest : ℚ := -((2 ^ 24 - 1) * 2 ^ 104)

/-- Embeds `Search_Cpu::ApplyMinLength` (`search.cpp:400-410`): no-op when the
current sequence length has reached `min_length`; otherwise set the score at
`eos_token_id` of every batch-beam row to `numeric_limits<float>::lowest()`. -/
def applyMinLength (p : Params) (seqLen : ℕ) (scores : List (List (WithBot ℚ))) :
    List (List (WithBot ℚ)) :=
  if p.minLength ≤ seqLen then scores
  else
    (List.range p.batchBeamSize).foldl
      (fun sc i => sc.set i ((sc.getD i []).set p.eosTokenId.toNat ((floatLowest : ℚ) : WithBot ℚ)))
      scores

/-- Concrete parameters used to exercise `applyMinLength`: one batch-beam row,
vocabulary `{0, 1}`, `eos_token_id = 0`, `min_length = 2`. -/
def pC3 : Params :=
  { batchSize := 1, numBeams := 1, vocabSize := 2, maxLength := 10, minLength := 2,
    eosTokenId := 0, padTokenId := 1, repetitionPenalty := 1, numReturnSequences := 1 }

/-! ### Repetition penalty (claim C5)

`Search_Cpu::ApplyRepetitionPenalty` (`search.cpp:412-435`). -/

/-- The per-id score update of `ApplyRepetitionPenalty`:
`score < 0 ? score * penalty : score / penalty`. -/
def penalize (ρ x : ℚ) : ℚ := if x < 0 then x * ρ else x / ρ

/-- Embeds the per-row body of `ApplyRepetitionPenalty`
(`search.cpp:419-433`): collect the unique token ids of the row's sequence
(the source inserts them into an `std::unordered_set`; `List.dedup` keeps one
copy of each — iteration order is immaterial because each id updates a
distinct score slot exactly once) and apply `penalize` at each of them. -/
def penalizeRow (ρ : ℚ) (seq : List ℤ) (row : List ℚ) : List ℚ :=
  seq.dedup.foldl (fun r w => r.set w.toNat (penalize ρ (r.getD w.toNat 0))) row

/-- Embeds `Search_Cpu::ApplyRepetitionPenalty` (`search.cpp:412-435`): no-op
when `penalty == 1.0`, otherwise penalize every batch-beam row against its own
sequence. -/
def applyRepetitionPenalty (p : Params) (ρ : ℚ) (rows : List (List ℤ))
    (scores : List (List ℚ)) : List (List ℚ) :=
  if ρ = 1 then scores
  else
    (List.range p.batchBeamSize).foldl
      (fun sc i => sc.set i (penalizeRow ρ (rows.getD i []) (sc.getD i [])))
      scores

/-! ### Sorting of vocabulary indices (sampling paths)

`SampleTopK`/`SampleTopP`/`SampleTopKTopP` (`search.cpp:159-230`) sort an
index array by softmaxed score, descending (`std::partial_sort` /
`std::sort` with comparator `scores[i] > scores[j]`).  The comparator-based
C++ sorts leave the relative order of equal-score indices unspecified, so the
embedding fixes ties by ascending index — it agrees with any correct
implementation whenever the compared scores are pairwise distinct, which is
the hypothesis under which the sampling claims are stated. -/

/-- Descending-score order on vocabulary indices, ties by ascending index. -/
def idxDescOrder (probs : List ℚ) (i j : ℕ) : Bool :=
  decide (probs.getD j 0 < probs.getD i 0 ∨ (probs.getD i 0 = probs.getD j 0 ∧ i ≤ j))

/-- Insertion step of the index sort. -/
def insertIdx (r : ℕ → ℕ → Bool) (x : ℕ) : List ℕ → List ℕ
  | [] => [x]
  | y :: ys => if r x y then x :: y :: ys else y :: insertIdx r x ys

/-- Insertion sort for index lists. -/
def sortIdx (r : ℕ → ℕ → Bool) : List ℕ → List ℕ
  | [] => []
  | x :: xs => insertIdx r x (sortIdx r xs)

/-- The sorted index array `indices` of the sampling functions
(`std::iota` over `[0, vocab)` then sort by score descending). -/
def sortIdxDesc (probs : List ℚ) : List ℕ :=
  sortIdx (idxDescOrder probs) (List.range probs.length)

/-! ### The top-p walk and the sampling steps (claims C2, C8) -/

/-- Embeds the threshold walk of `SampleTopP`/`SampleTopKTopP`
(`search.cpp:189-197` and `218-226`): subtract each visited probability from
the threshold and stop at the first index where it goes non-positive; if none
does, keep the initial token. -/
def topPWalk (probs : List ℚ) : List ℕ → ℚ → ℕ → ℕ
  | [], _, tok => tok
  | i :: rest, th, tok =>
    if 0 < th - probs.getD i 0 then topPWalk probs rest (th - probs.getD i 0) tok else i

/-- Embeds the per-row selection of `GreedySearch_Cpu::SampleTopKTopP`
(`search.cpp:209-226`), as a function of the post-softmax probabilities and
the drawn threshold: sort indices by probability descending, initialize the
token to `indices[k-1]`, then walk the first `k` sorted indices. -/
def sampleTopKTopPRow (probs : List ℚ) (k : ℕ) (threshold : ℚ) : ℕ :=
  topPWalk probs ((sortIdxDesc probs).take k) threshold ((sortIdxDesc probs).getD (k - 1) 0)

/-- Embeds `GreedySearch_Cpu::SampleTopK` (`search.cpp:159-172`).  `sfn`
abstracts the out-of-`src` in-place `SoftMax(scores, temperature)`
(spec 4.3), and `pick b` abstracts the `std::discrete_distribution` draw
(an index in `[0, k)`) for batch entry `b`.  Note: unlike `SelectTop`,
`SampleTopP` and `SampleTopKTopP`, the source loop has no
`PadIfAlreadyEOS` guard — rows that already emitted EOS are resampled. -/
def sampleTopK (p : Params) (sfn : ℚ → List ℚ → List ℚ) (pick : ℕ → ℕ) (τ : ℚ)
    (scores : List (List ℚ)) (st : GreedyState) : GreedyState :=
  appendNextTokensToSequences p <|
    (List.range p.batchSize).foldl
      (fun s b =>
        let probs := sfn τ (scores.getD b [])
        setNextToken p s b ((sortIdxDesc probs).getD (pick b) 0 : ℤ))
      st

/-- Embeds `GreedySearch_Cpu::SampleTopP` (`search.cpp:174-201`):
`thresholds b` abstracts the `Uniform(0, p)` draw for batch entry `b`; the
walk runs over the whole vocabulary with initial token 0, and rows that
already saw EOS are padded. -/
def sampleTopP (p : Params) (sfn : ℚ → List ℚ → List ℚ) (thresholds : ℕ → ℚ) (τ : ℚ)
    (scores : List (List ℚ)) (st : GreedyState) : GreedyState :=
  appendNextTokensToSequences p <|
    (List.range p.batchSize).foldl
      (fun s b =>
        let pr := padIfAlreadyEOS p s b
        if pr.1 then pr.2
        else
          let probs := sfn τ (scores.getD b [])
          setNextToken p pr.2 b ((topPWalk probs (sortIdxDesc probs) (thresholds b) 0 : ℕ) : ℤ))
      st

/-- Embeds `GreedySearch_Cpu::SampleTopKTopP` (`search.cpp:203-230`): rows
that already saw EOS are padded; the rest sample via `sampleTopKTopPRow`. -/
def sampleTopKTopP (p : Params) (sfn : ℚ → List ℚ → List ℚ) (thresholds : ℕ → ℚ) (k : ℕ)
    (τ : ℚ) (scores : List (List ℚ)) (st : GreedyState) : GreedyState :=
  appendNextTokensToSequences p <|
    (List.range p.batchSize).foldl
      (fun s b =>
        let pr := padIfAlreadyEOS p s b
        if pr.1 then pr.2
        else
          let probs := sfn τ (scores.getD b [])
          setNextToken p pr.2 b (sampleTopKTopPRow probs k (thresholds b) : ℤ))
      st

/-- Concrete parameters exercising the sampling steps: two batch rows,
vocabulary `{0, 1, 2}`, `eos_token_id = 1`, `pad_token_id = 9`. -/
def pC2 : Params :=
  { batchSize := 2, numBeams := 1, vocabSize := 3, maxLength := 10, minLength := 0,
    eosTokenId := 1, padTokenId := 9, repetitionPenalty := 1, numReturnSequences := 1 }

/-- Concrete state in which batch row 0 has already emitted EOS (its first
EOS already decremented `not_done_count_` from 2 to 1) and row 1 is live. -/
def stC2 : GreedyState :=
  { nextTokens := [0, 0], eosSeen := [true, false], notDoneCount := 1, done := false,
    rows := [[1], [0]], len := 1 }

/-- Cumulative probability mass of the first `n` entries of the walk order
`idxs` (used to state the top-p walk property). -/
def prefixSum (probs : List ℚ) (idxs : List ℕ) (n : ℕ) : ℚ :=
  ((idxs.take n).map (fun i => probs.getD i 0)).sum

/-! ### Dropping trailing tokens (claim C6) -/

/-- Embeds `GreedySearch_Cpu::DropLastTokens` (`search.cpp:276-294`): for each
batch row that has `eos_seen_` set, scan the `num_tokens` positions about to
be dropped; each occurrence of `eos_token_id` there increments
`not_done_count_`, clears `done_` and clears the row's `eos_seen_` flag.
Finally the sequences are truncated by `num_tokens` (spec 4.1 `drop_last`). -/
def dropLastTokens (p : Params) (numTokens : ℕ) (st : GreedyState) : GreedyState :=
  let newLen := st.len - numTokens
  let st1 :=
    (List.range p.batchSize).foldl
      (fun s i =>
        if s.eosSeen.getD i false = false then s
        else
          (List.range numTokens).foldl
            (fun s2 j =>
              if (st.rows.getD i []).getD (newLen + j) 0 = p.eosTokenId then
                { s2 with
                  notDoneCount := s2.notDoneCount + 1
                  done := false
                  eosSeen := s2.eosSeen.set i false }
              else s2)
            s)
      st
  { st1 with rows := st1.rows.map (fun r => r.take newLen), len := newLen }

/-! ### Speculative decoding (claims C4, C9)

`SpeculativeGreedySearch_Cpu` (`search.cpp:296-352`) derives from
`GreedySearch_Cpu` and reuses its state.  Its logits buffer holds one row per
`logit_index` (`[candidate_length + 1, vocab]`). -/

/-- Embeds `SpeculativeGreedySearch_Cpu::ApplyMinLength`
(`search.cpp:327-334`): no-op once the sequence length reaches `min_length`,
otherwise write `numeric_limits<float>::lowest()` at `eos_token_id` of the
`token_idx`-th logits row. -/
def applyMinLengthSpec (p : Params) (st : GreedyState) (tokenIdx : ℕ)
    (scores : List (List ℚ)) : List (List ℚ) :=
  if p.minLength ≤ st.len then scores
  else scores.set tokenIdx ((scores.getD tokenIdx []).set p.eosTokenId.toNat floatLowest)

/-- Embeds `SpeculativeGreedySearch_Cpu::ApplyRepetitionPenalty`
(`search.cpp:336-352`): no-op for `penalty == 1.0`, otherwise penalize the
`token_idx`-th logits row against `sequences_.GetSequence(token_idx)`.
Note the source indexes the sequence store with `token_idx` itself; with
`batch_size == 1` the store has a single row, so for `token_idx > 0` that
read is outside the stored rows — the model totalizes it as the empty
sequence (no ids penalized). -/
def applyRepetitionPenaltySpec (p : Params) (st : GreedyState) (tokenIdx : ℕ)
    (scores : List (List ℚ)) : List (List ℚ) :=
  if p.repetitionPenalty = 1 then scores
  else
    scores.set tokenIdx
      (penalizeRow p.repetitionPenalty (st.rows.getD tokenIdx []) (scores.getD tokenIdx []))

/-- One iteration body of the `CheckCandidates` loop (`search.cpp:303-317`):
shape the `logit_index`-th logits row, take its argmax as the next token, and
run the greedy EOS bookkeeping and sequence append.  Returns the updated
logits buffer, the updated state and the chosen token. -/
def specBody (p : Params) (logitIndex : ℕ) (scores : List (List ℚ)) (st : GreedyState) :
    List (List ℚ) × GreedyState × ℤ :=
  let sc1 := applyMinLengthSpec p st logitIndex scores
  let sc2 := applyRepetitionPenaltySpec p st logitIndex sc1
  let token : ℤ := (argmaxIdx (sc2.getD logitIndex []) : ℤ)
  (sc2, appendNextTokensToSequences p (setNextToken p st 0 token), token)

/-- The `CheckCandidates` loop (`search.cpp:302-321`).  `rem` counts the
iterations the `for` guard `logit_index < candidate_length + 1` still allows
(`rem = candidate_length + 1 - logit_index`), making the recursion
structural; the loop body breaks when `done_`, or `logit_index ==
candidate_length`, or the candidate token differs from the argmax token. -/
def specLoopAux (p : Params) (cands : List ℤ) (C : ℕ) :
    ℕ → ℕ → List (List ℚ) → GreedyState → ℕ × List (List ℚ) × GreedyState
  | 0, li, sc, st => (li, sc, st)
  | rem + 1, li, sc, st =>
    let r := specBody p li sc st
    if r.2.1.done ∨ li = C ∨ cands.getD li 0 ≠ r.2.2 then (li, r.1, r.2.1)
    else specLoopAux p cands C rem (li + 1) r.1 r.2.1

/-- Embeds `SpeculativeGreedySearch_Cpu::CheckCandidates`
(`search.cpp:296-325`): reject `batch_size != 1` with the source's
`std::runtime_error` before touching any state; otherwise run the
verification loop and return the accepted span
`GetSequence(0).subspan(prev_sequence_length, logit_index + 1)` together with
the final state. -/
def checkCandidates (p : Params) (inputSeq : List ℤ) (candidateLength : ℕ)
    (scores : List (List ℚ)) (st : GreedyState) : Except String (List ℤ × GreedyState) :=
  if p.batchSize ≠ 1 then .error "Speculative search only supports batch size 1"
  else
    let prevLen := inputSeq.length - candidateLength
    let cands := (inputSeq.drop prevLen).take candidateLength
    let r := specLoopAux p cands candidateLength (candidateLength + 1) 0 scores st
    .ok ((((r.2.2).rows.getD 0 []).drop prevLen).take (r.1 + 1), r.2.2)

/-- Iterated `CheckCandidates` loop body: logits buffer and state after the
first `j` iterations (the reference trace used to state claim C4). -/
def specIter (p : Params) (scores : List (List ℚ)) (st : GreedyState) :
    ℕ → List (List ℚ) × GreedyState
  | 0 => (scores, st)
  | j + 1 =>
    let prev := specIter p scores st j
    let r := specBody p j prev.1 prev.2
    (r.1, r.2.1)

/-- Token chosen at iteration `j` of the `CheckCandidates` loop. -/
def specTok (p : Params) (scores : List (List ℚ)) (st : GreedyState) (j : ℕ) : ℤ :=
  (specBody p j (specIter p scores st j).1 (specIter p scores st j).2).2.2

/-- Break condition of the `CheckCandidates` loop at iteration `j`
(checked after the iteration's append). -/
def specBrk (p : Params) (cands : List ℤ) (C : ℕ) (scores : List (List ℚ))
    (st : GreedyState) (j : ℕ) : Prop :=
  (specIter p scores st (j + 1)).2.done = true ∨ j = C ∨
    cands.getD j 0 ≠ specTok p scores st j

instance (p : Params) (cands : List ℤ) (C : ℕ) (scores : List (List ℚ))
    (st : GreedyState) (j : ℕ) : Decidable (specBrk p cands C scores st j) := by
  unfold specBrk
  infer_instance

/-- Concrete parameters exercising speculative decoding: `batch_size = 1`,
vocabulary `{0, 1}`. -/
def pC4 : Params :=
  { batchSize := 1, numBeams := 1, vocabSize := 2, maxLength := 10, minLength := 0,
    eosTokenId := 0, padTokenId := 1, repetitionPenalty := 1, numReturnSequences := 1 }

/-- Concrete single-row state with verified prefix `[5]`. -/
def stC4 : GreedyState :=
  { nextTokens := [0], eosSeen := [false], notDoneCount := 1, done := false,
    rows := [[5]], len := 1 }

/-- Number of EOS occurrences among positions `base + j`, `j < m`, of a row
(used to state the effect of `DropLastTokens`). -/
def countEos (row : List ℤ) (eos : ℤ) (base m : ℕ) : ℕ :=
  ((List.range m).filter (fun j => row.getD (base + j) 0 = eos)).length

/-- Number of EOS occurrences of row `i` within the `numTokens` positions
dropped by `DropLastTokens` (the suffix `[len − numTokens, len)`). -/
def droppedEosCount (p : Params) (st : GreedyState) (numTokens i : ℕ) : ℕ :=
  countEos (st.rows.getD i []) p.eosTokenId (st.len - numTokens) numTokens

/-- Concrete state exercising `dropLastTokens`: row 0 already saw EOS
(token 1) and its dropped suffix `[1, 0]` contains one EOS occurrence. -/
def stC6 : GreedyState :=
  { nextTokens := [0, 0], eosSeen := [true, false], notDoneCount := 1, done := true,
    rows := [[1, 1, 0], [1, 1, 1]], len := 3 }

/-! ### Beam top-2K selection (claim C1)

`BeamSearch_Cpu::SelectTop` (`search.cpp:95-130`) selects, per batch, the
top `2 * num_beams` of the `num_beams * vocab_size` cumulative candidate
scores with a `std::priority_queue<ScoreIndex>` whose comparator orders by
`score` only (`search.cpp:97-102`), then decodes `beam = index / vocab_size`,
`token = index % vocab_size`.  The cumulative scores (log-softmax plus beam
score, `search.cpp:74-93`, using the out-of-`src` `LogSoftMax`) are the
function's input here, exactly the quantity the claim's tie condition speaks
about.

`std::priority_queue` is `push_heap`/`pop_heap` on a `std::vector`; the
definitions below transcribe the GNU libstdc++ algorithms
(`bits/stl_heap.h`): `siftUpF` is `__push_heap`, `holeLoopF` the descent
loop of `__adjust_heap`, `adjustHeap` the whole of `__adjust_heap`
(including the even-size single-child case), `pushHeap`/`popHeap` the
`priority_queue` member operations.  The `fuel` argument only makes the
recursion structural (hence kernel-computable); every call site passes a
fuel that provably never runs out (`hole` bounds the sift-up steps,
`len - hole` the descent steps). -/

/-- A `ScoreIndex` entry of the priority queue: `(score, flattened index)`;
the comparator looks at the score only. -/
def SI : Type := ℚ × ℕ

/-- Default entry (reads through `getD` are always in bounds at call sites). -/
def dSI : SI := ((0 : ℚ), 0)

/-- Transcribes libstdc++ `__push_heap(first, holeIndex, topIndex = 0,
value)`: move the hole up while the parent compares less than `value`, then
drop `value` into the hole. -/
def siftUpF : ℕ → List SI → ℕ → SI → List SI
  | 0, a, hole, v => a.set hole v
  | fuel + 1, a, hole, v =>
    if 0 < hole ∧ (a.getD ((hole - 1) / 2) dSI).1 < v.1 then
      siftUpF fuel (a.set hole (a.getD ((hole - 1) / 2) dSI)) ((hole - 1) / 2) v
    else a.set hole v

/-- Transcribes the descent loop of libstdc++ `__adjust_heap`: while the hole
has two children, move the larger child up (on equal scores the right child,
matching `if (comp(first + secondChild, first + (secondChild - 1)))
secondChild--`) and descend.  Returns the array and the final hole. -/
def holeLoopF : ℕ → List SI → ℕ → ℕ → List SI × ℕ
  | 0, a, hole, _ => (a, hole)
  | fuel + 1, a, hole, len =>
    if hole < (len - 1) / 2 then
      let c0 := 2 * (hole + 1)
      let c := if (a.getD c0 dSI).1 < (a.getD (c0 - 1) dSI).1 then c0 - 1 else c0
      holeLoopF fuel (a.set hole (a.getD c dSI)) c len
    else (a, hole)

/-- Transcribes libstdc++ `__adjust_heap(first, 0, len, value)`: descend the
hole to a leaf along the larger-child path, handle the even-size case where
the last internal node has a single child, then sift `value` up from the
leaf. -/
def adjustHeap (a : List SI) (len : ℕ) (v : SI) : List SI :=
  let r := holeLoopF len a 0 len
  if len % 2 = 0 ∧ r.2 = (len - 2) / 2 then
    siftUpF (2 * (r.2 + 1) - 1)
      (r.1.set r.2 (r.1.getD (2 * (r.2 + 1) - 1) dSI)) (2 * (r.2 + 1) - 1) v
  else siftUpF r.2 r.1 r.2 v

/-- `priority_queue::push`: `push_back` then `push_heap`, i.e.
`__push_heap(first, size - 1, 0, new element)`. -/
def pushHeap (a : List SI) (x : SI) : List SI := siftUpF a.length (a ++ [x]) a.length x

/-- `priority_queue::pop`: `pop_heap` then `pop_back`.  For more than one
element, `__pop_heap` saves the last element as `value`, overwrites the last
slot with the root (dropped by `pop_back`), and runs `__adjust_heap` over the
remaining `size - 1` slots with `value`. -/
def popHeap (a : List SI) : List SI :=
  if a.length ≤ 1 then []
  else adjustHeap a.dropLast (a.length - 1) (a.getD (a.length - 1) dSI)

/-- `priority_queue::top`: the front of the vector. -/
def heapTop (a : List SI) : SI := a.getD 0 dSI

/-- The first `k` elements popped off the queue, in order
(`search.cpp:123-129`). -/
def heapPops (a : List SI) : ℕ → List SI
  | 0 => []
  | k + 1 => heapTop a :: heapPops (popHeap a) k

/-- Queue construction (`search.cpp:114-118`): push `{score, index}` for
`index = 0, 1, ...` in order. -/
def heapify (l : List SI) : List SI := l.foldl pushHeap []

/-- The per-batch candidate entries `(score, flattened index)` in push
order. -/
def candList (scores : List ℚ) : List SI := scores.enum.map (fun pr => (pr.2, pr.1))

/-- Embeds the per-batch top-2K selection of `BeamSearch_Cpu::SelectTop`
(`search.cpp:113-129`) as a function of the batch's cumulative candidate
scores: pop `2 * num_beams` entries and decode each as
`(score, index / vocab_size, index % vocab_size)`. -/
def beamSelectTopBatch (scores : List ℚ) (numBeams vocabSize : ℕ) : List (ℚ × ℕ × ℕ) :=
  (heapPops (heapify (candList scores)) (2 * numBeams)).map
    (fun v => (v.1, v.2 / vocabSize, v.2 % vocabSize))

/-- The tie-break order asserted by the claim: whenever two selected
candidates have equal scores, the earlier one has the lexicographically
smaller `(batch_beam_index, token_id)` pair. -/
def tieAscending (out : List (ℚ × ℕ × ℕ)) : Prop :=
  ∀ h2, h2 < out.length → ∀ h1, h1 < h2 →
    (out.getD h1 (0, 0, 0)).1 = (out.getD h2 (0, 0, 0)).1 →
    ((out.getD h1 (0, 0, 0)).2.1 < (out.getD h2 (0, 0, 0)).2.1 ∨
      ((out.getD h1 (0, 0, 0)).2.1 = (out.getD h2 (0, 0, 0)).2.1 ∧
        (out.getD h1 (0, 0, 0)).2.2 ≤ (out.getD h2 (0, 0, 0)).2.2))

/-- The binary max-heap invariant on the vector (every child's score at most
its parent's). -/
def IsHeap (a : List SI) : Prop :=
  ∀ i, 0 < i → i < a.length → (a.getD i dSI).1 ≤ (a.getD ((i - 1) / 2) dSI).1

instance (out : List (ℚ × ℕ × ℕ)) : Decidable (tieAscending out) := by
  unfold tieAscending
  infer_instance

/-! ### Beam-search finalization (claim C10)

`BeamSearch_Cpu::Finalize` and `BeamSearch_Cpu::GetSequence`
(`search.cpp:373-393`).  The `BeamSearchScorer` internals
(`beam_search_scorer.cpp`) are not under `src/`; its state is modelled from
the spec (section 4.4) as the per-batch lists of completed hypotheses
`(sequence, score)`, its `Finalize` as an opaque function parameter `sf`
(the theorems hold for every such function), and `GetBeamHypotheses` /
`GetHypothesis` as the read-only lookup `getHypothesis`. -/

/-- Modelled from the spec: the beam scorer's per-batch hypothesis store
(spec 4.4: per batch, up to K completed hypotheses `(sequence, score)`). -/
def ScorerState : Type := List (List (List ℤ × ℚ))

/-- State owned by `BeamSearch_Cpu` relevant to finalization: the
`finalized_` flag and the scorer. -/
structure BeamState where
  finalized : Bool
  scorer : ScorerState

/-- Embeds `BeamSearch_Cpu::Finalize` (`search.cpp:373-378`): a second call
returns immediately thanks to the `finalized_` flag; the first call runs the
scorer's `Finalize` (abstracted as `sf`) with the requested
`num_return_sequences`. -/
def beamFinalize (sf : ScorerState → ℕ → ScorerState) (numReturnSequences : ℕ)
    (st : BeamState) : BeamState :=
  if st.finalized then st
  else { finalized := true, scorer := sf st.scorer numReturnSequences }

/-- Modelled from the spec: `GetBeamHypotheses(batch_id)` followed by
`GetHypothesis(beam_id)` — a read-only lookup into the scorer state. -/
def getHypothesis (s : ScorerState) (batchId beamId : ℕ) : List ℤ × ℚ :=
  (List.getD s batchId []).getD beamId ([], 0)

/-- Embeds `BeamSearch_Cpu::GetSequence(batch_id, beam_id)`
(`search.cpp:389-393`): finalize with `params_->search.num_return_sequences`,
then return the requested hypothesis. -/
def beamGetSequence (p : Params) (sf : ScorerState → ℕ → ScorerState)
    (batchId beamId : ℕ) (st : BeamState) : (List ℤ × ℚ) × BeamState :=
  let st1 := beamFinalize sf p.numReturnSequences st
  (getHypothesis st1.scorer batchId beamId, st1)

/-! ## Theorems -/

/-! ### Generic list lemmas used throughout -/

theorem getD_set_self {α : Type} (l : List α) (i : ℕ) (v d : α) (h : i < l.length) :
    (l.set i v).getD i d = v := by
  simp [List.getD_eq_getElem?_getD, List.getElem?_set, h]

theorem getD_set_ne {α : Type} (l : List α) (i j : ℕ) (v d : α) (h : i ≠ j) :
    (l.set i v).getD j d = l.getD j d := by
  simp [List.getD_eq_getElem?_getD, List.getElem?_set, h]

theorem getD_mem {α : Type} (l : List α) (i : ℕ) (d : α) (h : i < l.length) :
    l.getD i d ∈ l := by
  rw [List.getD_eq_getElem?_getD, List.getElem?_eq_getElem h]
  exact l.getElem_mem h

theorem getD_append_left {α : Type} (l l₂ : List α) (i : ℕ) (d : α) (h : i < l.length) :
    (l ++ l₂).getD i d = l.getD i d := by
  rw [List.getD_eq_getElem?_getD, List.getD_eq_getElem?_getD, List.getElem?_append, if_pos h]

theorem getD_dropLast {α : Type} (l : List α) (i : ℕ) (d : α) (h : i < l.length - 1) :
    l.dropLast.getD i d = l.getD i d := by
  rw [List.getD_eq_getElem?_getD, List.getD_eq_getElem?_getD]
  rw [List.dropLast_eq_take, List.getElem?_take]
  simp [h]

/-! ### A fold-update helper

The mutation loops of `ApplyMinLength` and `ApplyRepetitionPenalty` update
each batch-beam row once, in increasing row order; this lemma computes the
resulting buffer pointwise. -/

theorem foldl_set_range_length {α : Type} (g : ℕ → α → α) (d : α) (l : List α) (n : ℕ) :
    ((List.range n).foldl (fun acc i => acc.set i (g i (acc.getD i d))) l).length = l.length := by
  induction n with
  | zero => simp
  | succ n ih =>
    rw [List.range_succ, List.foldl_append]
    simp only [List.foldl_cons, List.foldl_nil]
    rw [List.length_set, ih]

theorem foldl_set_range_getD {α : Type} (g : ℕ → α → α) (d : α) (hg : ∀ i, g i d = d)
    (l : List α) (n : ℕ) :
    ∀ j, ((List.range n).foldl (fun acc i => acc.set i (g i (acc.getD i d))) l).getD j d =
      if j < n then g j (l.getD j d) else l.getD j d := by
  induction n with
  | zero => intro j; simp
  | succ n ih =>
    intro j
    rw [List.range_succ, List.foldl_append]
    simp only [List.foldl_cons, List.foldl_nil]
    have hlen := foldl_set_range_length g d l n
    set acc := (List.range n).foldl (fun acc i => acc.set i (g i (acc.getD i d))) l with hacc
    have hval : acc.getD n d = l.getD n d := by rw [ih n]; simp
    by_cases hj : j = n
    · subst hj
      by_cases hin : j < l.length
      · rw [getD_set_self acc j _ d (by rw [hlen]; exact hin), hval]
        simp
      · have h1 : l.getD j d = d := by
          rw [List.getD_eq_getElem?_getD, List.getElem?_eq_none (by omega)]; rfl
        rw [List.getD_eq_getElem?_getD, List.getElem?_set]
        simp only [if_pos rfl, if_neg (show ¬ j < acc.length by omega)]
        simp only [Option.getD_none, h1, hg]
        simp
    · rw [getD_set_ne acc n j _ d (fun h => hj h.symm), ih j]
      rcases Nat.lt_or_ge j n with h | h
      · simp [h, Nat.lt_succ_of_lt h]
      · have h2 : ¬ j < n := by omega
        have h3 : ¬ j < n + 1 := by omega
        simp [h2, h3]

/-- Claim C3, counterexample: with sequence length 1 < `min_length` 2 the code
writes `std::numeric_limits<float>::lowest()` — the finite value
`floatLowest` — at `eos_token_id`, not `−∞` (`⊥`), so "sets the score at
`eos_token_id` to −∞" is false as stated. -/
theorem apply_min_length_not_neg_infinity :
    ((applyMinLength pC3 1 [[(5 : WithBot ℚ), 3]]).getD 0 []).getD 0 ⊥ =
      ((floatLowest : ℚ) : WithBot ℚ) ∧
    ((floatLowest : ℚ) : WithBot ℚ) ≠ (⊥ : WithBot ℚ) := by
  constructor
  · rfl
  · exact WithBot.coe_ne_bot

/-- Claim C3 as amended: while the sequence length is below `min_length`,
`Search_Cpu::ApplyMinLength` sets the score at `eos_token_id` of every
batch-beam row to `numeric_limits<float>::lowest()` (the most negative finite
float, serving as the −∞ mask sentinel) and touches nothing else; once the
length reaches `min_length`, the buffer is left unchanged. -/
theorem apply_min_length_masks (p : Params) (seqLen : ℕ) (scores : List (List (WithBot ℚ))) :
    (seqLen < p.minLength →
      (∀ i, i < p.batchBeamSize →
        (applyMinLength p seqLen scores).getD i [] =
          (scores.getD i []).set p.eosTokenId.toNat ((floatLowest : ℚ) : WithBot ℚ)) ∧
      ∀ i, p.batchBeamSize ≤ i →
        (applyMinLength p seqLen scores).getD i [] = scores.getD i []) ∧
    (p.minLength ≤ seqLen → applyMinLength p seqLen scores = scores) := by
  constructor
  · intro hlt
    have hnot : ¬ p.minLength ≤ seqLen := by omega
    unfold applyMinLength
    rw [if_neg hnot]
    constructor
    · intro i hi
      rw [foldl_set_range_getD
        (fun _ row => row.set p.eosTokenId.toNat ((floatLowest : ℚ) : WithBot ℚ)) []
        (fun i => by simp) scores p.batchBeamSize i, if_pos hi]
    · intro i hi
      rw [foldl_set_range_getD
        (fun _ row => row.set p.eosTokenId.toNat ((floatLowest : ℚ) : WithBot ℚ)) []
        (fun i => by simp) scores p.batchBeamSize i, if_neg (by omega)]
  · intro hge
    unfold applyMinLength
    rw [if_pos hge]

/-- Witness for the amended C3 at concrete inputs: masking when `ℓ = 1 < 2`,
no-op when `ℓ = 2`. -/
theorem apply_min_length_masks_witness :
    (applyMinLength pC3 1 [[(5 : WithBot ℚ), 3]]).getD 0 [] =
      ([(5 : WithBot ℚ), 3]).set 0 ((floatLowest : ℚ) : WithBot ℚ) ∧
    applyMinLength pC3 2 [[(5 : WithBot ℚ), 3]] = [[(5 : WithBot ℚ), 3]] :=
  ⟨((apply_min_length_masks pC3 1 [[(5 : WithBot ℚ), 3]]).1 (by decide)).1 0 (by decide),
   (apply_min_length_masks pC3 2 [[(5 : WithBot ℚ), 3]]).2 (by decide)⟩

theorem penalizeRow_nil (ρ : ℚ) (seq : List ℤ) : penalizeRow ρ seq [] = [] := by
  unfold penalizeRow
  induction seq.dedup with
  | nil => rfl
  | cons w rest ih => simpa using ih

theorem foldl_penalize_getD (ρ : ℚ) :
    ∀ (ids : List ℤ) (row : List ℚ), ids.Nodup →
    (∀ t ∈ ids, (0 : ℤ) ≤ t ∧ t.toNat < row.length) →
    ∀ v, v < row.length →
    (ids.foldl (fun r w => r.set w.toNat (penalize ρ (r.getD w.toNat 0))) row).getD v 0 =
      if (v : ℤ) ∈ ids then penalize ρ (row.getD v 0) else row.getD v 0 := by
  intro ids
  induction ids with
  | nil => intro row _ _ v _; simp
  | cons w rest ih =>
    intro row hnd hmem v hv
    have hw := hmem w (by simp)
    have hwn : ((w.toNat : ℤ)) = w := Int.toNat_of_nonneg hw.1
    simp only [List.foldl_cons]
    set row1 := row.set w.toNat (penalize ρ (row.getD w.toNat 0)) with hrow1
    have hlen1 : row1.length = row.length := by simp [hrow1]
    have hrec := ih row1 (List.Nodup.of_cons hnd)
      (by intro t ht; have := hmem t (List.mem_cons_of_mem _ ht); omega)
      v (by omega)
    by_cases hvw : v = w.toNat
    · have hmv : ((v : ℤ)) = w := by rw [hvw]; exact hwn
      have hnotin : ((v : ℤ)) ∉ rest := by
        rw [hmv]; exact (List.nodup_cons.mp hnd).1
      have hval : row1.getD v 0 = penalize ρ (row.getD v 0) := by
        rw [hrow1, hvw]
        exact getD_set_self row w.toNat _ 0 (by omega)
      rw [hrec, if_neg hnotin, hval, if_pos (by rw [hmv]; exact List.mem_cons_self w rest)]
    · have hrow1v : row1.getD v 0 = row.getD v 0 :=
        getD_set_ne row w.toNat v _ 0 (fun h => hvw h.symm)
      have hmemiff : ((v : ℤ) ∈ w :: rest) ↔ ((v : ℤ) ∈ rest) := by
        simp only [List.mem_cons]
        constructor
        · rintro (h | h)
          · exfalso; apply hvw; rw [← hwn, ← h]; simp
          · exact h
        · exact fun h => Or.inr h
      rw [hrec, hrow1v]
      simp [hmemiff]

/-- Claim C5: with `penalty == 1.0`, `ApplyRepetitionPenalty` returns the
score buffer bit-identical; with `penalty ≠ 1.0` it multiplies by ρ exactly
the scores at the token ids occurring in the row's sequence when the score is
negative, divides them by ρ when non-negative (each unique id updated once),
and leaves every other vocabulary position — and every row beyond the
batch-beam range — unchanged. -/
theorem repetition_penalty_spec (p : Params) (ρ : ℚ) (rows : List (List ℤ))
    (scores : List (List ℚ)) :
    (applyRepetitionPenalty p 1 rows scores = scores) ∧
    (ρ ≠ 1 →
      (∀ i, i < p.batchBeamSize →
        (∀ t ∈ rows.getD i [], (0 : ℤ) ≤ t ∧ t.toNat < (scores.getD i []).length) →
        ∀ v, v < (scores.getD i []).length →
        ((applyRepetitionPenalty p ρ rows scores).getD i []).getD v 0 =
          if (v : ℤ) ∈ rows.getD i [] then penalize ρ ((scores.getD i []).getD v 0)
          else (scores.getD i []).getD v 0) ∧
      (∀ i, p.batchBeamSize ≤ i →
        (applyRepetitionPenalty p ρ rows scores).getD i [] = scores.getD i [])) := by
  constructor
  · unfold applyRepetitionPenalty; rw [if_pos rfl]
  · intro hρ
    have hne : ¬ (ρ = 1) := hρ
    constructor
    · intro i hi hseq v hv
      unfold applyRepetitionPenalty
      rw [if_neg hne]
      rw [foldl_set_range_getD (fun i row => penalizeRow ρ (rows.getD i []) row) []
        (fun i => penalizeRow_nil ρ _) scores p.batchBeamSize i, if_pos hi]
      unfold penalizeRow
      rw [foldl_penalize_getD ρ (rows.getD i []).dedup (scores.getD i [])
        (List.nodup_dedup _)
        (by intro t ht; exact hseq t (List.mem_dedup.mp ht)) v hv]
      simp [List.mem_dedup]
    · intro i hi
      unfold applyRepetitionPenalty
      rw [if_neg hne]
      rw [foldl_set_range_getD (fun i row => penalizeRow ρ (rows.getD i []) row) []
        (fun i => penalizeRow_nil ρ _) scores p.batchBeamSize i, if_neg (by omega)]

/-- Witness for C5: one row with sequence `[0, 2, 0]` (unique ids 0 and 2),
scores `[-4, 6, 8]`, penalty 2: position 0 (negative) is multiplied, position
2 (non-negative) divided, position 1 untouched; and penalty 1 is the
identity. -/
theorem repetition_penalty_spec_witness :
    (applyRepetitionPenalty pC3 1 [[0, 2, 0]] [[(-4 : ℚ), 6, 8]] = [[(-4 : ℚ), 6, 8]]) ∧
    ((applyRepetitionPenalty pC3 2 [[0, 2, 0]] [[(-4 : ℚ), 6, 8]]).getD 0 []).getD 0 0 =
      penalize 2 (-4) ∧
    ((applyRepetitionPenalty pC3 2 [[0, 2, 0]] [[(-4 : ℚ), 6, 8]]).getD 0 []).getD 1 0 = 6 ∧
    ((applyRepetitionPenalty pC3 2 [[0, 2, 0]] [[(-4 : ℚ), 6, 8]]).getD 0 []).getD 2 0 =
      penalize 2 8 := by
  refine ⟨(repetition_penalty_spec pC3 1 [[0, 2, 0]] [[(-4 : ℚ), 6, 8]]).1, ?_, ?_, ?_⟩
  · rw [((repetition_penalty_spec pC3 2 [[0, 2, 0]] [[(-4 : ℚ), 6, 8]]).2 (by decide)).1
      0 (by decide) (by decide) 0 (by decide)]
    simp
  · rw [((repetition_penalty_spec pC3 2 [[0, 2, 0]] [[(-4 : ℚ), 6, 8]]).2 (by decide)).1
      0 (by decide) (by decide) 1 (by decide)]
    simp
  · rw [((repetition_penalty_spec pC3 2 [[0, 2, 0]] [[(-4 : ℚ), 6, 8]]).2 (by decide)).1
      0 (by decide) (by decide) 2 (by decide)]
    simp

/-! ### The missing EOS guard of SampleTopK (claim C2) -/

/-- Claim C2, code-bug demonstration: unlike `SelectTop`, `SampleTopP` and
`SampleTopKTopP`, the source of `GreedySearch_Cpu::SampleTopK`
(`search.cpp:159-172`) never calls `PadIfAlreadyEOS`.  Here batch row 0 has
`eos_seen_[0] = true` and `not_done_count_ = 1` (row 1 still live); one
`SampleTopK` step whose draw lands on the top-scored token — which is
`eos_token_id = 1` — writes that token instead of `pad_token_id = 9` and
decrements `not_done_count_` a second time for the same row, reaching 0 and
setting `done_ = true` even though row 1 never emitted EOS.  The softmax
abstraction `sfn` is instantiated with the identity, and the
`std::discrete_distribution` draw with 0 (the distribution's support is
`[0, k)`, so 0 is drawable for every `k ≥ 1`). -/
theorem sample_top_k_missing_eos_guard :
    sampleTopK pC2 (fun _ r => r) (fun _ => 0) 1 [[(1 : ℚ), 5, 2], [5, 1, 2]] stC2 =
      { nextTokens := [1, 0], eosSeen := [true, false], notDoneCount := 0, done := true,
        rows := [[1, 1], [0, 0]], len := 2 } ∧
    stC2.eosSeen.getD 0 false = true ∧
    stC2.notDoneCount = 1 ∧
    pC2.padTokenId = 9 ∧
    pC2.eosTokenId = 1 := by
  refine ⟨?_, rfl, rfl, rfl, rfl⟩
  rfl

/-! ### The index sort and the top-p walk (claim C8) -/

theorem insertIdx_perm (r : ℕ → ℕ → Bool) (x : ℕ) (l : List ℕ) :
    List.Perm (insertIdx r x l) (x :: l) := by
  induction l with
  | nil => simp [insertIdx]
  | cons y ys ih =>
    unfold insertIdx
    by_cases h : r x y
    · simp [h]
    · simp only [h, Bool.false_eq_true, if_false]
      exact (ih.cons y).trans (List.Perm.swap x y ys)

theorem sortIdx_perm (r : ℕ → ℕ → Bool) (l : List ℕ) : List.Perm (sortIdx r l) l := by
  induction l with
  | nil => simp [sortIdx]
  | cons x xs ih => exact (insertIdx_perm r x (sortIdx r xs)).trans (ih.cons x)

theorem insertIdx_pairwise (r : ℕ → ℕ → Bool)
    (htot : ∀ a b, r a b = true ∨ r b a = true)
    (htrans : ∀ a b c, r a b = true → r b c = true → r a c = true)
    (x : ℕ) (l : List ℕ) (hl : l.Pairwise (fun a b => r a b = true)) :
    (insertIdx r x l).Pairwise (fun a b => r a b = true) := by
  induction l with
  | nil => simp [insertIdx]
  | cons y ys ih =>
    rcases List.pairwise_cons.mp hl with ⟨hy, hys⟩
    unfold insertIdx
    by_cases h : r x y
    · simp only [h, if_true]
      refine List.pairwise_cons.mpr ⟨?_, hl⟩
      intro a ha
      rcases List.mem_cons.mp ha with ha | ha
      · subst ha; exact h
      · exact htrans x y a h (hy a ha)
    · simp only [h, Bool.false_eq_true, if_false]
      refine List.pairwise_cons.mpr ⟨?_, ih hys⟩
      intro a ha
      rcases List.mem_cons.mp ((insertIdx_perm r x ys).mem_iff.mp ha) with ha2 | ha2
      · subst ha2
        rcases htot a y with h1 | h1
        · exact absurd h1 h
        · exact h1
      · exact hy a ha2

theorem sortIdx_pairwise (r : ℕ → ℕ → Bool)
    (htot : ∀ a b, r a b = true ∨ r b a = true)
    (htrans : ∀ a b c, r a b = true → r b c = true → r a c = true)
    (l : List ℕ) : (sortIdx r l).Pairwise (fun a b => r a b = true) := by
  induction l with
  | nil => simp [sortIdx]
  | cons x xs ih => exact insertIdx_pairwise r htot htrans x (sortIdx r xs) ih

theorem idxDescOrder_total (probs : List ℚ) (a b : ℕ) :
    idxDescOrder probs a b = true ∨ idxDescOrder probs b a = true := by
  unfold idxDescOrder
  simp only [decide_eq_true_eq]
  rcases lt_trichotomy (probs.getD a 0) (probs.getD b 0) with h | h | h
  · right; left; exact h
  · rcases Nat.le_total a b with h2 | h2
    · left; right; exact ⟨h, h2⟩
    · right; right; exact ⟨h.symm, h2⟩
  · left; left; exact h

theorem idxDescOrder_trans (probs : List ℚ) (a b c : ℕ)
    (h1 : idxDescOrder probs a b = true) (h2 : idxDescOrder probs b c = true) :
    idxDescOrder probs a c = true := by
  unfold idxDescOrder at *
  rw [decide_eq_true_iff] at *
  rcases h1 with h1 | ⟨h1e, h1i⟩ <;> rcases h2 with h2 | ⟨h2e, h2i⟩
  · exact Or.inl (h2.trans h1)
  · exact Or.inl (h2e ▸ h1)
  · exact Or.inl (h1e ▸ h2)
  · exact Or.inr ⟨h1e.trans h2e, h1i.trans h2i⟩

theorem nodup_getD_inj (l : List ℚ) (hnd : l.Nodup) (i j : ℕ)
    (hi : i < l.length) (hj : j < l.length) (he : l.getD i 0 = l.getD j 0) : i = j := by
  rw [List.getD_eq_getElem?_getD, List.getElem?_eq_getElem hi] at he
  rw [List.getD_eq_getElem?_getD, List.getElem?_eq_getElem hj] at he
  simp only [Option.getD_some] at he
  exact (List.Nodup.getElem_inj_iff hnd).mp he

theorem prefixSum_cons (probs : List ℚ) (i : ℕ) (rest : List ℕ) (m : ℕ) :
    prefixSum probs (i :: rest) (m + 1) = probs.getD i 0 + prefixSum probs rest m := by
  simp [prefixSum]

theorem topPWalk_spec (probs : List ℚ) :
    ∀ (l : List ℕ) (th : ℚ) (tok : ℕ),
    (∀ m, m < l.length → th ≤ prefixSum probs l (m + 1) →
      (∀ j, j < m → prefixSum probs l (j + 1) < th) →
      topPWalk probs l th tok = l.getD m 0) ∧
    ((∀ m, m < l.length → prefixSum probs l (m + 1) < th) →
      topPWalk probs l th tok = tok) := by
  intro l
  induction l with
  | nil =>
    intro th tok
    exact ⟨fun m hm => absurd hm (by simp), fun _ => rfl⟩
  | cons i rest ih =>
    intro th tok
    by_cases h : 0 < th - probs.getD i 0
    · have hd : probs.getD i 0 < th := by linarith
      have hw0 : topPWalk probs (i :: rest) th tok =
          if 0 < th - probs.getD i 0 then topPWalk probs rest (th - probs.getD i 0) tok
          else i := rfl
      have hw : topPWalk probs (i :: rest) th tok =
          topPWalk probs rest (th - probs.getD i 0) tok := by
        rw [hw0, if_pos h]
      constructor
      · intro m hm hle hfirst
        match m with
        | 0 =>
          exfalso
          have : prefixSum probs (i :: rest) 1 = probs.getD i 0 := by simp [prefixSum]
          rw [this] at hle; linarith
        | m' + 1 =>
          have h1 : th - probs.getD i 0 ≤ prefixSum probs rest (m' + 1) := by
            have := hle
            rw [prefixSum_cons] at this
            linarith
          have h2 : ∀ j, j < m' → prefixSum probs rest (j + 1) < th - probs.getD i 0 := by
            intro j hj
            have := hfirst (j + 1) (by omega)
            rw [prefixSum_cons] at this
            linarith
          have := (ih (th - probs.getD i 0) tok).1 m' (by simpa using hm) h1 h2
          rw [hw, this]
          simp
      · intro hall
        have h2 : ∀ m, m < rest.length → prefixSum probs rest (m + 1) < th - probs.getD i 0 := by
          intro m hm
          have := hall (m + 1) (by simpa using Nat.succ_lt_succ hm)
          rw [prefixSum_cons] at this
          linarith
        rw [hw]
        exact (ih (th - probs.getD i 0) tok).2 h2
    · have hw0 : topPWalk probs (i :: rest) th tok =
          if 0 < th - probs.getD i 0 then topPWalk probs rest (th - probs.getD i 0) tok
          else i := rfl
      have hw : topPWalk probs (i :: rest) th tok = i := by
        rw [hw0, if_neg h]
      constructor
      · intro m hm hle hfirst
        match m with
        | 0 => rw [hw]; rfl
        | m' + 1 =>
          exfalso
          have := hfirst 0 (by omega)
          have h1 : prefixSum probs (i :: rest) 1 = probs.getD i 0 := by simp [prefixSum]
          rw [h1] at this
          linarith
      · intro hall
        exfalso
        have := hall 0 (by simp)
        have h1 : prefixSum probs (i :: rest) 1 = probs.getD i 0 := by simp [prefixSum]
        rw [h1] at this
        linarith

/-- Claim C8: in `GreedySearch_Cpu::SampleTopKTopP` the sorted index array is
a permutation of the vocabulary ordered by strictly descending probability
(under the stated pairwise-distinct hypothesis); the walk subtracts the
probabilities of the `k` highest-probability indices in that order from the
drawn threshold and returns the first index at which the threshold goes
non-positive; if none of the `k` crosses it, the `k`-th element of the sorted
order (`indices[k-1]`) is returned. -/
theorem sample_top_k_top_p_row_spec (probs : List ℚ) (k : ℕ) (th : ℚ)
    (hnd : probs.Nodup) (_hk1 : 1 ≤ k) (hk : k ≤ probs.length) :
    List.Perm (sortIdxDesc probs) (List.range probs.length) ∧
    List.Pairwise (fun a b => probs.getD b 0 < probs.getD a 0) (sortIdxDesc probs) ∧
    (∀ m, m < k → th ≤ prefixSum probs (sortIdxDesc probs) (m + 1) →
      (∀ j, j < m → prefixSum probs (sortIdxDesc probs) (j + 1) < th) →
      sampleTopKTopPRow probs k th = (sortIdxDesc probs).getD m 0) ∧
    ((∀ m, m < k → prefixSum probs (sortIdxDesc probs) (m + 1) < th) →
      sampleTopKTopPRow probs k th = (sortIdxDesc probs).getD (k - 1) 0) := by
  have hperm : List.Perm (sortIdxDesc probs) (List.range probs.length) :=
    sortIdx_perm (idxDescOrder probs) (List.range probs.length)
  have hlen : (sortIdxDesc probs).length = probs.length := by
    rw [hperm.length_eq, List.length_range]
  have hmemlt : ∀ x ∈ sortIdxDesc probs, x < probs.length := by
    intro x hx
    exact List.mem_range.mp (hperm.mem_iff.mp hx)
  have hsorted := sortIdx_pairwise (idxDescOrder probs) (idxDescOrder_total probs)
    (idxDescOrder_trans probs) (List.range probs.length)
  have hnodup : (sortIdxDesc probs).Nodup :=
    (hperm.nodup_iff).mpr (List.nodup_range _)
  have hstrict : List.Pairwise (fun a b => probs.getD b 0 < probs.getD a 0)
      (sortIdxDesc probs) := by
    refine List.Pairwise.imp_of_mem ?_ (hsorted.and hnodup)
    intro a b ha hb hab
    rcases hab with ⟨hr, hne⟩
    unfold idxDescOrder at hr
    rw [decide_eq_true_iff] at hr
    rcases hr with hr | ⟨hre, _⟩
    · exact hr
    · exact absurd (nodup_getD_inj probs hnd a b (hmemlt a ha) (hmemlt b hb) hre) hne
  have htklen : ((sortIdxDesc probs).take k).length = k := by
    rw [List.length_take, hlen]; omega
  have htkgetD : ∀ m, m < k →
      ((sortIdxDesc probs).take k).getD m 0 = (sortIdxDesc probs).getD m 0 := by
    intro m hm
    rw [List.getD_eq_getElem?_getD, List.getD_eq_getElem?_getD, List.getElem?_take, if_pos hm]
  have hpfx : ∀ m, m ≤ k →
      prefixSum probs ((sortIdxDesc probs).take k) m = prefixSum probs (sortIdxDesc probs) m := by
    intro m hm
    unfold prefixSum
    rw [List.take_take, min_eq_left hm]
  refine ⟨hperm, hstrict, ?_, ?_⟩
  · intro m hm hle hfirst
    have := (topPWalk_spec probs ((sortIdxDesc probs).take k) th
      ((sortIdxDesc probs).getD (k - 1) 0)).1 m (by rw [htklen]; exact hm)
      (by rw [hpfx (m + 1) (by omega)]; exact hle)
      (by intro j hj; rw [hpfx (j + 1) (by omega)]; exact hfirst j hj)
    unfold sampleTopKTopPRow
    rw [this, htkgetD m hm]
  · intro hall
    have := (topPWalk_spec probs ((sortIdxDesc probs).take k) th
      ((sortIdxDesc probs).getD (k - 1) 0)).2
      (by intro m hm; rw [hpfx (m + 1) (by rw [htklen] at hm; omega)]
          exact hall m (by rw [htklen] at hm; exact hm))
    unfold sampleTopKTopPRow
    rw [this]

/-- Witness for C8 at (unnormalized) probabilities `[20, 12, 5, 3]`, `k = 2`,
`threshold = 24`: the walk passes index 0 (mass 20 < 24) and stops at index 1
(mass 32 ≥ 24). -/
theorem sample_top_k_top_p_row_spec_witness :
    sampleTopKTopPRow [(20 : ℚ), 12, 5, 3] 2 24 =
      (sortIdxDesc [(20 : ℚ), 12, 5, 3]).getD 1 0 := by
  have hs : sortIdxDesc [(20 : ℚ), 12, 5, 3] = [0, 1, 2, 3] := by decide
  refine (sample_top_k_top_p_row_spec [(20 : ℚ), 12, 5, 3] 2 24
    (by decide) (by decide) (by decide)).2.2.1 1 (by decide) ?_ ?_
  · rw [hs]
    simp [prefixSum]
    norm_num
  · intro j hj
    have hj0 : j = 0 := by omega
    subst hj0
    rw [hs]
    simp [prefixSum]
    norm_num

/-! ### Rollback across EOS (claim C6) -/

theorem countEos_succ (row : List ℤ) (eos : ℤ) (base m : ℕ) :
    countEos row eos base (m + 1) =
      countEos row eos base m + (if row.getD (base + m) 0 = eos then 1 else 0) := by
  unfold countEos
  rw [List.range_succ, List.filter_append]
  by_cases h : row.getD (base + m) 0 = eos
  · rw [List.getD_eq_getElem?_getD] at h
    simp [h]
  · rw [List.getD_eq_getElem?_getD] at h
    simp [h]

theorem drop_inner_spec (p : Params) (row : List ℤ) (i newLen : ℕ) :
    ∀ (m : ℕ) (s : GreedyState),
    (List.range m).foldl
      (fun s2 j =>
        if row.getD (newLen + j) 0 = p.eosTokenId then
          { s2 with
            notDoneCount := s2.notDoneCount + 1
            done := false
            eosSeen := s2.eosSeen.set i false }
        else s2) s =
    { s with
      notDoneCount := s.notDoneCount + (countEos row p.eosTokenId newLen m : ℤ)
      done := if 0 < countEos row p.eosTokenId newLen m then false else s.done
      eosSeen :=
        if 0 < countEos row p.eosTokenId newLen m then s.eosSeen.set i false
        else s.eosSeen } := by
  intro m
  induction m with
  | zero =>
    intro s
    simp [countEos]
  | succ m ih =>
    intro s
    rw [List.range_succ, List.foldl_append]
    simp only [List.foldl_cons, List.foldl_nil]
    rw [ih s, countEos_succ]
    by_cases h : row.getD (newLen + m) 0 = p.eosTokenId
    · have h1 : (if row.getD (newLen + m) 0 = p.eosTokenId then (1 : ℕ) else 0) = 1 := if_pos h
      rw [h1, if_pos h]
      have hcp : 0 < countEos row p.eosTokenId newLen m + 1 := Nat.succ_pos _
      rw [if_pos hcp, if_pos hcp]
      have harith : s.notDoneCount + (countEos row p.eosTokenId newLen m : ℤ) + 1 =
          s.notDoneCount + ((countEos row p.eosTokenId newLen m + 1 : ℕ) : ℤ) := by
        push_cast; ring
      by_cases hc : 0 < countEos row p.eosTokenId newLen m
      · rw [if_pos hc, List.set_set, harith]
      · rw [if_neg hc, harith]
    · have h0 : (if row.getD (newLen + m) 0 = p.eosTokenId then (1 : ℕ) else 0) = 0 := if_neg h
      rw [h0, if_neg h]
      simp

/-- The iterated `eos_seen_` update performed by the outer loop of
`DropLastTokens` over the first `m` batch rows. -/
theorem drop_es_fold_not_touched (p : Params) (st : GreedyState) (numTokens : ℕ)
    (m : ℕ) :
    ∀ (es : List Bool) (l : List ℕ), (∀ x ∈ l, x ≠ m) →
    (l.foldl
      (fun es i =>
        if st.eosSeen.getD i false = true ∧ 0 < droppedEosCount p st numTokens i
        then es.set i false else es)
      es).getD m false = es.getD m false := by
  intro es l
  induction l generalizing es with
  | nil => intro _; rfl
  | cons x xs ihl =>
    intro hxs
    simp only [List.foldl_cons]
    rw [ihl _ (fun y hy => hxs y (List.mem_cons_of_mem x hy))]
    by_cases hx : st.eosSeen.getD x false = true ∧ 0 < droppedEosCount p st numTokens x
    · rw [if_pos hx, getD_set_ne _ _ _ _ _ (hxs x (List.mem_cons_self x xs))]
    · rw [if_neg hx]

theorem drop_outer_spec (p : Params) (st : GreedyState) (numTokens : ℕ) :
    ∀ (m : ℕ),
    (List.range m).foldl
      (fun s i =>
        if s.eosSeen.getD i false = false then s
        else
          (List.range numTokens).foldl
            (fun s2 j =>
              if (st.rows.getD i []).getD (st.len - numTokens + j) 0 = p.eosTokenId then
                { s2 with
                  notDoneCount := s2.notDoneCount + 1
                  done := false
                  eosSeen := s2.eosSeen.set i false }
              else s2)
            s)
      st =
    { st with
      notDoneCount := st.notDoneCount + ∑ i ∈ Finset.range m,
        (if st.eosSeen.getD i false then (droppedEosCount p st numTokens i : ℤ) else 0)
      done :=
        if 0 < ∑ i ∈ Finset.range m,
          (if st.eosSeen.getD i false then (droppedEosCount p st numTokens i : ℤ) else 0)
        then false else st.done
      eosSeen :=
        (List.range m).foldl
          (fun es i =>
            if st.eosSeen.getD i false = true ∧ 0 < droppedEosCount p st numTokens i
            then es.set i false else es)
          st.eosSeen } := by
  intro m
  induction m with
  | zero => simp
  | succ m ih =>
    have hsumnn : (0 : ℤ) ≤ ∑ i ∈ Finset.range m,
        (if st.eosSeen.getD i false then (droppedEosCount p st numTokens i : ℤ) else 0) := by
      apply Finset.sum_nonneg
      intro i _
      split
      · exact Int.natCast_nonneg _
      · exact le_refl 0
    rw [List.range_succ, List.foldl_append]
    simp only [List.foldl_cons, List.foldl_nil]
    rw [ih]
    rw [List.foldl_append]
    simp only [List.foldl_cons, List.foldl_nil]
    have hflag := drop_es_fold_not_touched p st numTokens m st.eosSeen (List.range m)
      (fun x hx => by have := List.mem_range.mp hx; omega)
    rw [Finset.sum_range_succ]
    set Sm := ∑ i ∈ Finset.range m,
      (if st.eosSeen.getD i false then (droppedEosCount p st numTokens i : ℤ) else 0)
      with hSm
    set esm := (List.range m).foldl
      (fun es i =>
        if st.eosSeen.getD i false = true ∧ 0 < droppedEosCount p st numTokens i
        then es.set i false else es)
      st.eosSeen with hesm
    by_cases hm : st.eosSeen.getD m false = true
    · simp only [hflag, hm, if_neg (by simp : ¬ (true : Bool) = false)]
      rw [drop_inner_spec p (st.rows.getD m []) m (st.len - numTokens) numTokens]
      have hdec : countEos (st.rows.getD m []) p.eosTokenId (st.len - numTokens) numTokens =
          droppedEosCount p st numTokens m := rfl
      rw [hdec]
      by_cases hc : 0 < droppedEosCount p st numTokens m
      · simp only [if_pos hc, hm, if_true]
        have hpos : (0 : ℤ) < Sm + (droppedEosCount p st numTokens m : ℤ) := by
          have : (0 : ℤ) < (droppedEosCount p st numTokens m : ℤ) := by exact_mod_cast hc
          omega
        simp only [if_pos hpos]
        have harith : st.notDoneCount + Sm + (droppedEosCount p st numTokens m : ℤ) =
            st.notDoneCount + (Sm + (droppedEosCount p st numTokens m : ℤ)) := by ring
        rw [harith]
        simp [hc]
      · have hz : droppedEosCount p st numTokens m = 0 := by omega
        simp only [if_neg hc, hm, if_true, hz, Nat.cast_zero, add_zero]
        simp [hc]
    · have hmb : st.eosSeen.getD m false = false := by
        cases h : st.eosSeen.getD m false
        · rfl
        · exact absurd h hm
      simp only [hflag, hmb, if_pos rfl]
      simp [hmb]

/-- Pointwise description of the `eos_seen_` flags after `DropLastTokens`. -/
theorem drop_es_fold_getD (p : Params) (st : GreedyState) (numTokens : ℕ) :
    ∀ (m : ℕ) (i : ℕ),
    ((List.range m).foldl
      (fun es i =>
        if st.eosSeen.getD i false = true ∧ 0 < droppedEosCount p st numTokens i
        then es.set i false else es)
      st.eosSeen).getD i false =
      if i < m ∧ st.eosSeen.getD i false = true ∧ 0 < droppedEosCount p st numTokens i
      then false else st.eosSeen.getD i false := by
  intro m
  induction m with
  | zero => intro i; simp
  | succ m ih =>
    intro i
    rw [List.range_succ, List.foldl_append]
    simp only [List.foldl_cons, List.foldl_nil]
    by_cases hi : i = m
    · subst hi
      have hbase := drop_es_fold_not_touched p st numTokens i st.eosSeen (List.range i)
        (fun x hx => by have := List.mem_range.mp hx; omega)
      by_cases hcond : st.eosSeen.getD i false = true ∧ 0 < droppedEosCount p st numTokens i
      · rw [if_pos hcond]
        have hlen : i < ((List.range i).foldl
            (fun es i =>
              if st.eosSeen.getD i false = true ∧ 0 < droppedEosCount p st numTokens i
              then es.set i false else es)
            st.eosSeen).length := by
          have hlen2 : ∀ (l : List ℕ) (es : List Bool),
              (l.foldl
                (fun es i =>
                  if st.eosSeen.getD i false = true ∧ 0 < droppedEosCount p st numTokens i
                  then es.set i false else es)
                es).length = es.length := by
            intro l
            induction l with
            | nil => intro es; rfl
            | cons x xs ihl =>
              intro es
              simp only [List.foldl_cons]
              rw [ihl]
              by_cases hx : st.eosSeen.getD x false = true ∧ 0 < droppedEosCount p st numTokens x
              · rw [if_pos hx, List.length_set]
              · rw [if_neg hx]
          rw [hlen2]
          by_contra hout
          have : st.eosSeen.getD i false = false := by
            rw [List.getD_eq_getElem?_getD, List.getElem?_eq_none (by omega)]
            rfl
          rw [this] at hcond
          exact absurd hcond.1 (by simp)
        rw [getD_set_self _ i _ _ hlen, if_pos ⟨by omega, hcond⟩]
      · rw [if_neg hcond, hbase]
        rcases Nat.lt_or_ge i (i + 1) with _ | h
        · simp only [if_neg (fun hand : i < i + 1 ∧ _ => hcond hand.2)]
        · omega
    · have hstep : ∀ (es : List Bool),
          (if st.eosSeen.getD m false = true ∧ 0 < droppedEosCount p st numTokens m
           then es.set m false else es).getD i false = es.getD i false := by
        intro es
        by_cases hx : st.eosSeen.getD m false = true ∧ 0 < droppedEosCount p st numTokens m
        · rw [if_pos hx, getD_set_ne _ _ _ _ _ (fun h => hi h.symm)]
        · rw [if_neg hx]
      rw [hstep, ih i]
      by_cases hcond : st.eosSeen.getD i false = true ∧ 0 < droppedEosCount p st numTokens i
      · by_cases hlt : i < m
        · rw [if_pos ⟨hlt, hcond⟩, if_pos ⟨by omega, hcond⟩]
        · have hge : ¬ i < m + 1 := by omega
          rw [if_neg (fun hand : i < m ∧ _ => hlt hand.1),
            if_neg (fun hand : i < m + 1 ∧ _ => hge hand.1)]
      · rw [if_neg (fun hand : i < m ∧ _ => hcond hand.2),
          if_neg (fun hand : i < m + 1 ∧ _ => hcond hand.2)]

/-- Claim C6: `GreedySearch_Cpu::DropLastTokens(n)` increments
`not_done_count_` once per occurrence of `eos_token_id` in the dropped
suffix of every row whose `eos_seen_` flag is set (not clamped to one per
row), sets `done_` to false whenever at least one such occurrence exists,
clears `eos_seen_[r]` exactly when row r's dropped suffix contains at least
one EOS, and finally shortens the sequences by `n`. -/
theorem drop_last_tokens_spec (p : Params) (n : ℕ) (st : GreedyState) :
    (dropLastTokens p n st).len = st.len - n ∧
    (dropLastTokens p n st).rows = st.rows.map (fun r => r.take (st.len - n)) ∧
    (dropLastTokens p n st).notDoneCount =
      st.notDoneCount + ∑ i ∈ Finset.range p.batchSize,
        (if st.eosSeen.getD i false then (droppedEosCount p st n i : ℤ) else 0) ∧
    (∀ i, i < p.batchSize → st.eosSeen.getD i false = true →
      (dropLastTokens p n st).eosSeen.getD i false =
        (if 0 < droppedEosCount p st n i then false else true)) ∧
    ((dropLastTokens p n st).done =
      if 0 < ∑ i ∈ Finset.range p.batchSize,
        (if st.eosSeen.getD i false then (droppedEosCount p st n i : ℤ) else 0)
      then false else st.done) := by
  simp only [dropLastTokens]
  rw [drop_outer_spec p st n p.batchSize]
  refine ⟨trivial, by rfl, by rfl, ?_, by rfl⟩
  intro i hi hflag
  rw [drop_es_fold_getD p st n p.batchSize i]
  by_cases hc : 0 < droppedEosCount p st n i
  · rw [if_pos ⟨hi, hflag, hc⟩, if_pos hc]
  · rw [if_neg (fun hand : i < p.batchSize ∧ _ ∧ _ => hc hand.2.2), if_neg hc, hflag]

/-- Witness for C6 at `stC6` with `n = 2`: row 0 (with `eos_seen_` set) has
one EOS in its dropped suffix, so the flag is cleared; the length shrinks by
2. -/
theorem drop_last_tokens_spec_witness :
    (dropLastTokens pC2 2 stC6).len = stC6.len - 2 ∧
    (dropLastTokens pC2 2 stC6).eosSeen.getD 0 false =
      (if 0 < droppedEosCount pC2 stC6 2 0 then false else true) := by
  obtain ⟨h1, _, _, h4, _⟩ := drop_last_tokens_spec pC2 2 stC6
  exact ⟨h1, h4 0 (by decide) (by decide)⟩



/-! ### Speculative verification loop (claims C4 and C9) -/

theorem setNextToken_rows (p : Params) (st : GreedyState) (b : ℕ) (tok : ℤ) :
    (setNextToken p st b tok).rows = st.rows ∧
    (setNextToken p st b tok).nextTokens = st.nextTokens.set b tok := by
  unfold setNextToken
  split
  · exact ⟨rfl, rfl⟩
  · exact ⟨rfl, rfl⟩

theorem appendNTS_fields (p : Params) (st : GreedyState) :
    (appendNextTokensToSequences p st).rows =
      (st.rows.zip st.nextTokens).map (fun rt => rt.1 ++ [rt.2]) ∧
    (appendNextTokensToSequences p st).nextTokens = st.nextTokens := by
  unfold appendNextTokensToSequences seqAppend
  dsimp only
  split
  · exact ⟨rfl, rfl⟩
  · exact ⟨rfl, rfl⟩

theorem set_zero_of_length_one (l : List ℤ) (h : l.length = 1) (v : ℤ) : l.set 0 v = [v] := by
  match l with
  | [x] => rfl

theorem specIter_rows (p : Params) (scores : List (List ℚ)) (st : GreedyState) (r0 : List ℤ)
    (hrows : st.rows = [r0]) (hnext : st.nextTokens.length = 1) :
    ∀ j, (specIter p scores st j).2.rows =
        [r0 ++ (List.range j).map (fun i => specTok p scores st i)] ∧
      (specIter p scores st j).2.nextTokens.length = 1 := by
  intro j
  induction j with
  | zero => simpa using ⟨hrows, hnext⟩
  | succ j ih =>
    have hstep : (specIter p scores st (j + 1)).2 =
        appendNextTokensToSequences p
          (setNextToken p (specIter p scores st j).2 0 (specTok p scores st j)) := rfl
    rcases ih with ⟨ihrows, ihnext⟩
    rcases setNextToken_rows p (specIter p scores st j).2 0 (specTok p scores st j)
      with ⟨hsr, hsn⟩
    rcases appendNTS_fields p
      (setNextToken p (specIter p scores st j).2 0 (specTok p scores st j)) with ⟨har, han⟩
    have hsetz : (specIter p scores st j).2.nextTokens.set 0 (specTok p scores st j) =
        [specTok p scores st j] :=
      set_zero_of_length_one _ ihnext _
    constructor
    · rw [hstep, har, hsr, hsn, ihrows, hsetz]
      rw [List.range_succ, List.map_append]
      simp
    · rw [hstep, han, hsn, hsetz]
      rfl

theorem specLoopAux_spec (p : Params) (cands : List ℤ) (C : ℕ) (scores : List (List ℚ))
    (st : GreedyState) :
    ∀ (rem li : ℕ), li + rem = C + 1 →
    (∀ j, j < li → ¬ specBrk p cands C scores st j) →
    ∃ li', li ≤ li' ∧ li' ≤ C ∧ specBrk p cands C scores st li' ∧
      (∀ j, j < li' → ¬ specBrk p cands C scores st j) ∧
      specLoopAux p cands C rem li (specIter p scores st li).1 (specIter p scores st li).2 =
        (li', (specIter p scores st (li' + 1)).1, (specIter p scores st (li' + 1)).2) := by
  intro rem
  induction rem with
  | zero =>
    intro li hsum hprior
    exfalso
    exact hprior C (by omega) (Or.inr (Or.inl rfl))
  | succ rem ih =>
    intro li hsum hprior
    have hliC : li ≤ C := by omega
    by_cases hbrk : specBrk p cands C scores st li
    · refine ⟨li, le_refl li, hliC, hbrk, hprior, ?_⟩
      have hbrk2 : (specIter p scores st (li + 1)).2.done = true ∨ li = C ∨
          cands.getD li 0 ≠ specTok p scores st li := hbrk
      show (if (specIter p scores st (li + 1)).2.done = true ∨ li = C ∨
          cands.getD li 0 ≠ specTok p scores st li then
          ((li, (specIter p scores st (li + 1)).1, (specIter p scores st (li + 1)).2) :
            ℕ × List (List ℚ) × GreedyState)
        else specLoopAux p cands C rem (li + 1)
          (specIter p scores st (li + 1)).1 (specIter p scores st (li + 1)).2) =
        (li, (specIter p scores st (li + 1)).1, (specIter p scores st (li + 1)).2)
      rw [if_pos hbrk2]
    · obtain ⟨li', h1, h2, h3, h4, h5⟩ := ih (li + 1) (by omega)
        (by
          intro j hj
          rcases Nat.lt_succ_iff_lt_or_eq.mp hj with hj' | hj'
          · exact hprior j hj'
          · subst hj'; exact hbrk)
      refine ⟨li', by omega, h2, h3, h4, ?_⟩
      have hbrk2 : ¬ ((specIter p scores st (li + 1)).2.done = true ∨ li = C ∨
          cands.getD li 0 ≠ specTok p scores st li) := hbrk
      show (if (specIter p scores st (li + 1)).2.done = true ∨ li = C ∨
          cands.getD li 0 ≠ specTok p scores st li then
          ((li, (specIter p scores st (li + 1)).1, (specIter p scores st (li + 1)).2) :
            ℕ × List (List ℚ) × GreedyState)
        else specLoopAux p cands C rem (li + 1)
          (specIter p scores st (li + 1)).1 (specIter p scores st (li + 1)).2) =
        (li', (specIter p scores st (li' + 1)).1, (specIter p scores st (li' + 1)).2)
      rw [if_neg hbrk2]
      exact h5

/-- Claim C4: with `batch_size == 1` and a draft of length `C ≥ 1`,
`CheckCandidates` iterates from `logit_index = 0`, appending each position's
argmax token, and stops at the first `logit_index` satisfying `done_`, or
`logit_index == candidate_length`, or a mismatch with the draft token; the
returned span holds exactly the `logit_index + 1` tokens appended beyond the
verified prefix. -/
theorem check_candidates_spec (p : Params) (inputSeq : List ℤ) (C : ℕ)
    (scores : List (List ℚ)) (st : GreedyState) (r0 : List ℤ)
    (hb : p.batchSize = 1) (_hC : 1 ≤ C) (hrows : st.rows = [r0])
    (hlen : r0.length = st.len) (hnext : st.nextTokens.length = 1)
    (hprev : st.len = inputSeq.length - C) :
    ∃ li, li ≤ C ∧
      specBrk p ((inputSeq.drop (inputSeq.length - C)).take C) C scores st li ∧
      (∀ j, j < li →
        ¬ specBrk p ((inputSeq.drop (inputSeq.length - C)).take C) C scores st j) ∧
      checkCandidates p inputSeq C scores st =
        .ok ((List.range (li + 1)).map (fun i => specTok p scores st i),
          (specIter p scores st (li + 1)).2) ∧
      ((specIter p scores st (li + 1)).2).rows =
        [r0 ++ (List.range (li + 1)).map (fun i => specTok p scores st i)] ∧
      ((List.range (li + 1)).map (fun i => specTok p scores st i)).length = li + 1 := by
  obtain ⟨li, h1, h2, h3, h4, h5⟩ :=
    specLoopAux_spec p ((inputSeq.drop (inputSeq.length - C)).take C) C scores st
      (C + 1) 0 (by omega) (by omega)
  have h5b : specLoopAux p ((inputSeq.drop (inputSeq.length - C)).take C) C
      (C + 1) 0 scores st =
      (li, (specIter p scores st (li + 1)).1, (specIter p scores st (li + 1)).2) := h5
  obtain ⟨hr, _⟩ := specIter_rows p scores st r0 hrows hnext (li + 1)
  have hmaplen : ((List.range (li + 1)).map (fun i => specTok p scores st i)).length =
      li + 1 := by
    rw [List.length_map, List.length_range]
  refine ⟨li, h2, h3, h4, ?_, hr, hmaplen⟩
  unfold checkCandidates
  rw [if_neg (by omega : ¬ p.batchSize ≠ 1)]
  dsimp only
  rw [h5b, hr]
  have hr0len : r0.length = inputSeq.length - C := by omega
  rw [List.getD_cons_zero]
  rw [← hr0len, List.drop_left]
  have htake : ((List.range (li + 1)).map (fun i => specTok p scores st i)).take (li + 1) =
      (List.range (li + 1)).map (fun i => specTok p scores st i) :=
    List.take_of_length_le (by rw [hmaplen])
  rw [htake]

/-- Witness for C4: prefix `[5]`, draft `[1]` (`C = 1`), logits rows
`[[1, 3], [2, 1]]`: position 0's argmax token 1 matches the draft, position
1's argmax token 0 is the model's own extension, and the loop breaks at
`logit_index = 1 = C` having accepted 2 tokens. -/
theorem check_candidates_spec_witness :
    ∃ li, li ≤ 1 ∧
      specBrk pC4 ((([5, 1] : List ℤ).drop (([5, 1] : List ℤ).length - 1)).take 1) 1
        [[(1 : ℚ), 3], [2, 1]] stC4 li ∧
      (∀ j, j < li →
        ¬ specBrk pC4 ((([5, 1] : List ℤ).drop (([5, 1] : List ℤ).length - 1)).take 1) 1
          [[(1 : ℚ), 3], [2, 1]] stC4 j) ∧
      checkCandidates pC4 [5, 1] 1 [[(1 : ℚ), 3], [2, 1]] stC4 =
        .ok ((List.range (li + 1)).map
          (fun i => specTok pC4 [[(1 : ℚ), 3], [2, 1]] stC4 i),
          (specIter pC4 [[(1 : ℚ), 3], [2, 1]] stC4 (li + 1)).2) ∧
      ((specIter pC4 [[(1 : ℚ), 3], [2, 1]] stC4 (li + 1)).2).rows =
        [[5] ++ (List.range (li + 1)).map
          (fun i => specTok pC4 [[(1 : ℚ), 3], [2, 1]] stC4 i)] ∧
      ((List.range (li + 1)).map
        (fun i => specTok pC4 [[(1 : ℚ), 3], [2, 1]] stC4 i)).length = li + 1 :=
  check_candidates_spec pC4 [5, 1] 1 [[(1 : ℚ), 3], [2, 1]] stC4 [5]
    rfl (by decide) rfl rfl rfl rfl

/-- Claim C9: `SpeculativeGreedySearch_Cpu::CheckCandidates` throws its
`std::runtime_error` before touching any state whenever `batch_size != 1`,
and never raises this error when `batch_size == 1`. -/
theorem check_candidates_batch_size_guard (p : Params) (inputSeq : List ℤ) (C : ℕ)
    (scores : List (List ℚ)) (st : GreedyState) :
    (p.batchSize ≠ 1 →
      checkCandidates p inputSeq C scores st =
        .error "Speculative search only supports batch size 1") ∧
    (p.batchSize = 1 →
      ∃ out, checkCandidates p inputSeq C scores st = .ok out) := by
  constructor
  · intro h
    unfold checkCandidates
    rw [if_pos h]
  · intro h
    unfold checkCandidates
    rw [if_neg (by omega : ¬ p.batchSize ≠ 1)]
    exact ⟨_, rfl⟩

/-- Witness for C9: `batch_size = 2` is rejected with the exact error
message; `batch_size = 1` succeeds. -/
theorem check_candidates_batch_size_guard_witness :
    checkCandidates pC2 [5, 1] 1 [[(1 : ℚ), 3], [2, 1]] stC2 =
      .error "Speculative search only supports batch size 1" ∧
    ∃ out, checkCandidates pC4 [5, 1] 1 [[(1 : ℚ), 3], [2, 1]] stC4 = .ok out :=
  ⟨(check_candidates_batch_size_guard pC2 [5, 1] 1 [[(1 : ℚ), 3], [2, 1]] stC2).1
      (by decide),
   (check_candidates_batch_size_guard pC4 [5, 1] 1 [[(1 : ℚ), 3], [2, 1]] stC4).2 rfl⟩

/-! ### Finalization is idempotent (claim C10) -/

/-- Claim C10: once `BeamSearch_Cpu::Finalize` has run, every later
`Finalize` call — with any `num_return_sequences` — is a no-op leaving the
beam-scorer state unchanged; `GetSequence(batch_id, beam_id)` implicitly
finalizes with `num_return_sequences` from `Params`; and repeated
`GetSequence` calls return the same hypothesis and the same state.  This
holds for every scorer-level finalization function `sf`. -/
theorem beam_finalize_idempotent (p : Params) (sf : ScorerState → ℕ → ScorerState)
    (numRet numRet2 : ℕ) (st : BeamState) (batchId beamId : ℕ) :
    beamFinalize sf numRet2 (beamFinalize sf numRet st) = beamFinalize sf numRet st ∧
    (beamGetSequence p sf batchId beamId st).2 =
      beamFinalize sf p.numReturnSequences st ∧
    (beamGetSequence p sf batchId beamId
        ((beamGetSequence p sf batchId beamId st).2)).1 =
      (beamGetSequence p sf batchId beamId st).1 ∧
    (beamGetSequence p sf batchId beamId
        ((beamGetSequence p sf batchId beamId st).2)).2 =
      (beamGetSequence p sf batchId beamId st).2 := by
  have hfin : ∀ (R R2 : ℕ) (s : BeamState),
      beamFinalize sf R2 (beamFinalize sf R s) = beamFinalize sf R s := by
    intro R R2 s
    unfold beamFinalize
    by_cases h : s.finalized
    · simp [h]
    · rw [if_neg h]
      rfl
  refine ⟨hfin numRet numRet2 st, rfl, ?_, ?_⟩
  · show getHypothesis (beamFinalize sf p.numReturnSequences
        (beamFinalize sf p.numReturnSequences st)).scorer batchId beamId =
      getHypothesis (beamFinalize sf p.numReturnSequences st).scorer batchId beamId
    rw [hfin p.numReturnSequences p.numReturnSequences st]
  · show beamFinalize sf p.numReturnSequences
        (beamFinalize sf p.numReturnSequences st) =
      beamFinalize sf p.numReturnSequences st
    exact hfin p.numReturnSequences p.numReturnSequences st

/-! ### Lemmas about the greedy argmax -/

theorem argmaxAux_spec (rest : List ℚ) : ∀ (pre : List ℚ) (best : ℕ) (bv : ℚ),
    best < pre.length → (pre ++ rest).getD best 0 = bv →
    (∀ j, j < pre.length → pre.getD j 0 ≤ bv) →
    (∀ j, j < pre.length → pre.getD j 0 = bv → best ≤ j) →
    argmaxAux rest best bv pre.length < (pre ++ rest).length ∧
    (∀ j, j < (pre ++ rest).length →
      (pre ++ rest).getD j 0 ≤ (pre ++ rest).getD (argmaxAux rest best bv pre.length) 0) ∧
    (∀ j, j < (pre ++ rest).length →
      (pre ++ rest).getD j 0 = (pre ++ rest).getD (argmaxAux rest best bv pre.length) 0 →
      argmaxAux rest best bv pre.length ≤ j) := by
  induction rest with
  | nil =>
    intro pre best bv hb hval hle hleast
    simp only [List.append_nil, argmaxAux] at *
    refine ⟨hb, ?_, ?_⟩
    · intro j hj; rw [hval]; exact hle j hj
    · intro j hj hj2; rw [hval] at hj2; exact hleast j hj hj2
  | cons s rest ih =>
    intro pre best bv hb hval hle hleast
    have hrow : pre ++ s :: rest = (pre ++ [s]) ++ rest := by simp
    have hslen : (pre ++ [s]).length = pre.length + 1 := by simp
    have hpls : pre.length < (pre ++ [s]).length := by simp
    have hgets : ((pre ++ [s]) ++ rest).getD pre.length 0 = s := by
      rw [getD_append_left (pre ++ [s]) rest pre.length 0 hpls]
      simp [List.getD_eq_getElem?_getD, List.getElem?_append_right (le_refl pre.length)]
    by_cases hc : bv < s
    · -- max_element moves to the new position `pre.length`
      have := ih (pre ++ [s]) pre.length s (by simp) (by rw [hgets])
        (by
          intro j hj
          rcases Nat.lt_succ_iff_lt_or_eq.mp (by simpa using hj) with hj' | hj'
          · calc (pre ++ [s]).getD j 0 = pre.getD j 0 := getD_append_left _ _ _ _ hj'
              _ ≤ bv := hle j hj'
              _ ≤ s := le_of_lt hc
          · subst hj'
            simp [List.getD_eq_getElem?_getD, List.getElem?_append_right (le_refl pre.length)])
        (by
          intro j hj hj2
          rcases Nat.lt_succ_iff_lt_or_eq.mp (by simpa using hj) with hj' | hj'
          · exfalso
            rw [getD_append_left _ _ _ _ hj'] at hj2
            exact absurd (hj2 ▸ hle j hj') (not_le.mpr hc)
          · omega)
      rw [hrow]
      simpa [argmaxAux, hc, hslen] using this
    · -- keep the current best
      have := ih (pre ++ [s]) best bv (by simp; omega) (by rw [← hrow, hval])
        (by
          intro j hj
          rcases Nat.lt_succ_iff_lt_or_eq.mp (by simpa using hj) with hj' | hj'
          · calc (pre ++ [s]).getD j 0 = pre.getD j 0 := getD_append_left _ _ _ _ hj'
              _ ≤ bv := hle j hj'
          · subst hj'
            have : ((pre ++ [s])).getD pre.length 0 = s := by
              simp [List.getD_eq_getElem?_getD, List.getElem?_append_right (le_refl pre.length)]
            rw [this]; exact not_lt.mp hc)
        (by
          intro j hj hj2
          rcases Nat.lt_succ_iff_lt_or_eq.mp (by simpa using hj) with hj' | hj'
          · rw [getD_append_left _ _ _ _ hj'] at hj2
            exact hleast j hj' hj2
          · omega)
      rw [hrow]
      simpa [argmaxAux, hc, hslen] using this

/-- Claim C7: per row, greedy selection (`GreedySearch_Cpu::SelectTop`,
`search.cpp:151-152`, via `std::max_element`) returns an index attaining the
maximum score, and among all indices attaining the maximum it returns the
lowest one. -/
theorem greedy_argmax_lowest_index (row : List ℚ) (hrow : row ≠ []) :
    argmaxIdx row < row.length ∧
    (∀ j, j < row.length → row.getD j 0 ≤ row.getD (argmaxIdx row) 0) ∧
    (∀ j, j < row.length → row.getD j 0 = row.getD (argmaxIdx row) 0 → argmaxIdx row ≤ j) := by
  cases row with
  | nil => exact absurd rfl hrow
  | cons x xs =>
    have h := argmaxAux_spec xs [x] 0 x (by simp) (by simp) (by simp)
      (by intro j hj _; omega)
    simpa [argmaxIdx] using h

/-- Witness for C7 at the concrete row `[1, 3, 3]` (maximum 3 attained at
indices 1 and 2; the lowest, 1, is returned). -/
theorem greedy_argmax_lowest_index_witness :
    argmaxIdx [(1 : ℚ), 3, 3] < ([(1 : ℚ), 3, 3] : List ℚ).length ∧
    (∀ j, j < ([(1 : ℚ), 3, 3] : List ℚ).length →
      ([(1 : ℚ), 3, 3] : List ℚ).getD j 0 ≤
      ([(1 : ℚ), 3, 3] : List ℚ).getD (argmaxIdx [(1 : ℚ), 3, 3]) 0) ∧
    (∀ j, j < ([(1 : ℚ), 3, 3] : List ℚ).length →
      ([(1 : ℚ), 3, 3] : List ℚ).getD j 0 =
      ([(1 : ℚ), 3, 3] : List ℚ).getD (argmaxIdx [(1 : ℚ), 3, 3]) 0 →
      argmaxIdx [(1 : ℚ), 3, 3] ≤ j) :=
  greedy_argmax_lowest_index [(1 : ℚ), 3, 3] (by decide)

/-! ### The libstdc++ binary heap (claim C1) -/

theorem siftUpF_length (fuel : ℕ) : ∀ (a : List SI) (hole : ℕ) (v : SI),
    (siftUpF fuel a hole v).length = a.length := by
  induction fuel with
  | zero => intro a hole v; simp [siftUpF]
  | succ fuel ih =>
    intro a hole v
    unfold siftUpF
    split
    · rw [ih, List.length_set]
    · rw [List.length_set]

theorem holeLoopF_length (fuel : ℕ) : ∀ (a : List SI) (hole len : ℕ),
    ((holeLoopF fuel a hole len).1).length = a.length := by
  induction fuel with
  | zero => intro a hole len; rfl
  | succ fuel ih =>
    intro a hole len
    unfold holeLoopF
    split
    · rw [ih, List.length_set]
    · rfl

theorem holeLoopF_snd_lt (fuel : ℕ) : ∀ (a : List SI) (hole len : ℕ),
    hole < len → (holeLoopF fuel a hole len).2 < len := by
  induction fuel with
  | zero => intro a hole len h; exact h
  | succ fuel ih =>
    intro a hole len h
    unfold holeLoopF
    split
    · next hg =>
      apply ih
      split
      · omega
      · omega
    · exact h

theorem adjustHeap_length (a : List SI) (len : ℕ) (v : SI) :
    (adjustHeap a len v).length = a.length := by
  unfold adjustHeap
  dsimp only
  split
  · rw [siftUpF_length, List.length_set, holeLoopF_length]
  · rw [siftUpF_length, holeLoopF_length]

theorem pushHeap_length (a : List SI) (x : SI) : (pushHeap a x).length = a.length + 1 := by
  unfold pushHeap
  rw [siftUpF_length, List.length_append, List.length_cons, List.length_nil]

theorem popHeap_length (a : List SI) (h : 2 ≤ a.length) :
    (popHeap a).length = a.length - 1 := by
  unfold popHeap
  rw [if_neg (by omega : ¬ a.length ≤ 1), adjustHeap_length, List.length_dropLast]

theorem heapify_length (l : List SI) : (heapify l).length = l.length := by
  unfold heapify
  suffices h : ∀ acc : List SI, (l.foldl pushHeap acc).length = acc.length + l.length by
    simpa using h []
  induction l with
  | nil => intro acc; simp
  | cons x xs ih =>
    intro acc
    simp only [List.foldl_cons]
    rw [ih, pushHeap_length, List.length_cons]
    omega

theorem heapPops_length (k : ℕ) : ∀ a : List SI, (heapPops a k).length = k := by
  induction k with
  | zero => intro a; rfl
  | succ k ih => intro a; unfold heapPops; rw [List.length_cons, ih]

theorem mem_siftUpF (fuel : ℕ) : ∀ (a : List SI) (hole : ℕ) (v : SI) (x : SI),
    hole ≤ fuel → hole < a.length → x ∈ siftUpF fuel a hole v → x ∈ a ∨ x = v := by
  induction fuel with
  | zero =>
    intro a hole v x _ _ hx
    exact List.mem_or_eq_of_mem_set hx
  | succ fuel ih =>
    intro a hole v x hf hlt hx
    unfold siftUpF at hx
    split at hx
    · next hg =>
      have hp : (hole - 1) / 2 < hole := by omega
      have := ih (a.set hole (a.getD ((hole - 1) / 2) dSI)) ((hole - 1) / 2) v x
        (by omega) (by rw [List.length_set]; omega) hx
      rcases this with h | h
      · rcases List.mem_or_eq_of_mem_set h with h2 | h2
        · exact Or.inl h2
        · exact Or.inl (h2 ▸ getD_mem a ((hole - 1) / 2) dSI (by omega))
      · exact Or.inr h
    · exact List.mem_or_eq_of_mem_set hx

theorem mem_holeLoopF (fuel : ℕ) : ∀ (a : List SI) (hole len : ℕ) (x : SI),
    len = a.length → x ∈ (holeLoopF fuel a hole len).1 → x ∈ a := by
  induction fuel with
  | zero => intro a hole len x _ hx; exact hx
  | succ fuel ih =>
    intro a hole len x hlen hx
    unfold holeLoopF at hx
    split at hx
    · next hg =>
      set c := if ((a.getD (2 * (hole + 1)) dSI).1 < (a.getD (2 * (hole + 1) - 1) dSI).1)
        then 2 * (hole + 1) - 1 else 2 * (hole + 1) with hc
      have hcb : c < len := by
        rw [hc]; split <;> omega
      have := ih (a.set hole (a.getD c dSI)) c len x (by rw [List.length_set]; exact hlen) hx
      rcases List.mem_or_eq_of_mem_set this with h2 | h2
      · exact h2
      · exact h2 ▸ getD_mem a c dSI (by omega)
    · exact hx

theorem mem_adjustHeap (a : List SI) (len : ℕ) (v : SI) (x : SI)
    (hlen : len = a.length) (h1 : 1 ≤ len) :
    x ∈ adjustHeap a len v → x ∈ a ∨ x = v := by
  intro hx
  have hr2 : (holeLoopF len a 0 len).2 < len := holeLoopF_snd_lt len a 0 len (by omega)
  have hrlen : ((holeLoopF len a 0 len).1).length = a.length := holeLoopF_length len a 0 len
  unfold adjustHeap at hx
  dsimp only at hx
  split at hx
  · next hcase =>
    have hidx : 2 * ((holeLoopF len a 0 len).2 + 1) - 1 = len - 1 := by omega
    have := mem_siftUpF (2 * ((holeLoopF len a 0 len).2 + 1) - 1) _ _ v x (le_refl _)
      (by rw [List.length_set, hrlen]; omega) hx
    rcases this with h | h
    · rcases List.mem_or_eq_of_mem_set h with h2 | h2
      · exact Or.inl (mem_holeLoopF len a 0 len x hlen h2)
      · refine Or.inl (mem_holeLoopF len a 0 len x hlen ?_)
        exact h2 ▸ getD_mem _ _ dSI (by rw [hrlen]; omega)
    · exact Or.inr h
  · have := mem_siftUpF (holeLoopF len a 0 len).2 _ _ v x (le_refl _)
      (by rw [hrlen]; omega) hx
    rcases this with h | h
    · exact Or.inl (mem_holeLoopF len a 0 len x hlen h)
    · exact Or.inr h

theorem mem_popHeap (a : List SI) (x : SI) (h2 : 2 ≤ a.length) :
    x ∈ popHeap a → x ∈ a := by
  intro hx
  unfold popHeap at hx
  rw [if_neg (by omega : ¬ a.length ≤ 1)] at hx
  have := mem_adjustHeap a.dropLast (a.length - 1) (a.getD (a.length - 1) dSI) x
    (by rw [List.length_dropLast]) (by omega) hx
  rcases this with h | h
  · exact List.dropLast_subset a h
  · exact h ▸ getD_mem a (a.length - 1) dSI (by omega)

/-- Heap-shape invariant carried through `__push_heap`'s sift-up: outside the
hole the parent bound holds (except for the hole's own children, which are
bounded by `v` and by the hole's parent), so dropping `v` in restores the
full heap property. -/
theorem siftUpF_isHeap (fuel : ℕ) : ∀ (a : List SI) (hole : ℕ) (v : SI),
    hole ≤ fuel → hole < a.length →
    (∀ i, 0 < i → i < a.length → i ≠ hole → (i - 1) / 2 ≠ hole →
      (a.getD i dSI).1 ≤ (a.getD ((i - 1) / 2) dSI).1) →
    (∀ i, 0 < i → i < a.length → (i - 1) / 2 = hole →
      (a.getD i dSI).1 ≤ v.1 ∧
        (0 < hole → (a.getD i dSI).1 ≤ (a.getD ((hole - 1) / 2) dSI).1)) →
    IsHeap (siftUpF fuel a hole v) := by
  induction fuel with
  | zero =>
    intro a hole v hf hlt hA hB
    have h0 : hole = 0 := by omega
    subst h0
    intro i hi hilen
    rw [siftUpF] at hilen ⊢
    rw [List.length_set] at hilen
    rw [getD_set_ne a 0 i v dSI (by omega)]
    by_cases hpar : (i - 1) / 2 = 0
    · rw [hpar, getD_set_self a 0 v dSI hlt]
      exact ((hB i hi hilen (by omega)).1)
    · rw [getD_set_ne a 0 ((i - 1) / 2) v dSI (fun h => hpar h.symm)]
      exact hA i hi hilen (by omega) hpar
  | succ fuel ih =>
    intro a hole v hf hlt hA hB
    by_cases hg : 0 < hole ∧ (a.getD ((hole - 1) / 2) dSI).1 < v.1
    · have hstep : siftUpF (fuel + 1) a hole v =
          siftUpF fuel (a.set hole (a.getD ((hole - 1) / 2) dSI)) ((hole - 1) / 2) v := by
        rw [siftUpF, if_pos hg]
      rw [hstep]
      have h0 : 0 < hole := hg.1
      have hplt : (hole - 1) / 2 < hole := by omega
      apply ih (a.set hole (a.getD ((hole - 1) / 2) dSI)) ((hole - 1) / 2) v
        (by omega) (by rw [List.length_set]; omega)
      · -- parent bound away from the new hole
        intro i hi hilen hne hpne
        rw [List.length_set] at hilen
        by_cases hpari : (i - 1) / 2 = hole
        · -- a child of the old hole: bounded by the old hole's parent
          have hinh : i ≠ hole := by omega
          rw [getD_set_ne a hole i _ dSI (fun h => hinh h.symm), hpari,
            getD_set_self a hole _ dSI hlt]
          exact (hB i hi hilen hpari).2 h0
        · by_cases hieq : i = hole
          · exfalso
            apply hpne
            rw [hieq]
          · rw [getD_set_ne a hole i _ dSI (fun h => hieq h.symm),
              getD_set_ne a hole ((i - 1) / 2) _ dSI (fun h => hpari h.symm)]
            exact hA i hi hilen hieq hpari
      · -- children of the new hole
        intro i hi hilen hpar
        rw [List.length_set] at hilen
        have hppos : (hole - 1) / 2 < hole := hplt
        constructor
        · by_cases hieq : i = hole
          · rw [hieq, getD_set_self a hole _ dSI hlt]
            exact le_of_lt hg.2
          · rw [getD_set_ne a hole i _ dSI (fun h => hieq h.symm)]
            have := hA i hi hilen hieq (by omega)
            rw [hpar] at this
            exact le_trans this (le_of_lt hg.2)
        · intro hp0
          have hgp : ((hole - 1) / 2 - 1) / 2 ≠ hole := by omega
          rw [getD_set_ne a hole (((hole - 1) / 2 - 1) / 2) _ dSI (fun h => hgp h.symm)]
          have hpp : (a.getD ((hole - 1) / 2) dSI).1 ≤
              (a.getD (((hole - 1) / 2 - 1) / 2) dSI).1 :=
            hA ((hole - 1) / 2) hp0 (by omega) (by omega) (by omega)
          by_cases hieq : i = hole
          · rw [hieq, getD_set_self a hole _ dSI hlt]
            exact hpp
          · rw [getD_set_ne a hole i _ dSI (fun h => hieq h.symm)]
            have := hA i hi hilen hieq (by omega)
            rw [hpar] at this
            exact le_trans this hpp
    · have hstep : siftUpF (fuel + 1) a hole v = a.set hole v := by
        rw [siftUpF, if_neg hg]
      rw [hstep]
      intro i hi hilen
      rw [List.length_set] at hilen
      by_cases hieq : i = hole
      · have h0 : 0 < hole := hieq ▸ hi
        have hvle : v.1 ≤ (a.getD ((hole - 1) / 2) dSI).1 := by
          by_contra hcon
          exact hg ⟨h0, not_le.mp hcon⟩
        rw [hieq, getD_set_self a hole v dSI hlt,
          getD_set_ne a hole ((hole - 1) / 2) v dSI (by omega)]
        exact hvle
      · rw [getD_set_ne a hole i v dSI (fun h => hieq h.symm)]
        by_cases hpari : (i - 1) / 2 = hole
        · rw [hpari, getD_set_self a hole v dSI hlt]
          exact (hB i hi hilen hpari).1
        · rw [getD_set_ne a hole ((i - 1) / 2) v dSI (fun h => hpari h.symm)]
          exact hA i hi hilen hieq hpari

theorem pushHeap_isHeap (a : List SI) (x : SI) (h : IsHeap a) : IsHeap (pushHeap a x) := by
  unfold pushHeap
  apply siftUpF_isHeap a.length (a ++ [x]) a.length x (le_refl _) (by simp)
  · intro i hi hilen hne _
    rw [List.length_append, List.length_cons, List.length_nil] at hilen
    have hia : i < a.length := by omega
    rw [getD_append_left a [x] i dSI hia,
      getD_append_left a [x] ((i - 1) / 2) dSI (by omega)]
    exact h i hi hia
  · intro i hi hilen hpar
    rw [List.length_append, List.length_cons, List.length_nil] at hilen
    omega

theorem heapify_isHeap (l : List SI) : IsHeap (heapify l) := by
  unfold heapify
  suffices h : ∀ acc : List SI, IsHeap acc → IsHeap (l.foldl pushHeap acc) by
    exact h [] (by intro i hi hilen; simp at hilen)
  induction l with
  | nil => intro acc hacc; exact hacc
  | cons y ys ih =>
    intro acc hacc
    simp only [List.foldl_cons]
    exact ih (pushHeap acc y) (pushHeap_isHeap acc y hacc)

/-- Heap-shape invariant carried through `__adjust_heap`'s descent loop: the
parent bound holds except around the hole, the hole's children are bounded by
the hole's parent, and at exit the hole has left the two-children zone. -/
theorem holeLoopF_invariant (fuel : ℕ) : ∀ (a : List SI) (hole len : ℕ),
    len = a.length → len - hole ≤ fuel → hole < len →
    (∀ i, 0 < i → i < len → i ≠ hole → (i - 1) / 2 ≠ hole →
      (a.getD i dSI).1 ≤ (a.getD ((i - 1) / 2) dSI).1) →
    (∀ i, 0 < i → i < len → (i - 1) / 2 = hole → 0 < hole →
      (a.getD i dSI).1 ≤ (a.getD ((hole - 1) / 2) dSI).1) →
    ((holeLoopF fuel a hole len).1.length = a.length ∧
      (holeLoopF fuel a hole len).2 < len ∧
      ¬ (holeLoopF fuel a hole len).2 < (len - 1) / 2) ∧
    (∀ i, 0 < i → i < len → i ≠ (holeLoopF fuel a hole len).2 →
      (i - 1) / 2 ≠ (holeLoopF fuel a hole len).2 →
      ((holeLoopF fuel a hole len).1.getD i dSI).1 ≤
        ((holeLoopF fuel a hole len).1.getD ((i - 1) / 2) dSI).1) ∧
    (∀ i, 0 < i → i < len → (i - 1) / 2 = (holeLoopF fuel a hole len).2 →
      0 < (holeLoopF fuel a hole len).2 →
      ((holeLoopF fuel a hole len).1.getD i dSI).1 ≤
        ((holeLoopF fuel a hole len).1.getD
          (((holeLoopF fuel a hole len).2 - 1) / 2) dSI).1) := by
  induction fuel with
  | zero =>
    intro a hole len hlen hfuel hlt hA hC
    exact absurd hlt (by omega)
  | succ fuel ih =>
    intro a hole len hlen hfuel hlt hA hC
    by_cases hg : hole < (len - 1) / 2
    · set c := (if (a.getD (2 * (hole + 1)) dSI).1 < (a.getD (2 * (hole + 1) - 1) dSI).1
        then 2 * (hole + 1) - 1 else 2 * (hole + 1)) with hcdef
      have hstep : holeLoopF (fuel + 1) a hole len =
          holeLoopF fuel (a.set hole (a.getD c dSI)) c len := by
        rw [holeLoopF, if_pos hg]
      have hcfacts : 2 * hole + 1 ≤ c ∧ c ≤ 2 * hole + 2 ∧ c < len ∧ (c - 1) / 2 = hole := by
        rw [hcdef]; split <;> omega
      obtain ⟨hclo, hchi, hclen, hcpar⟩ := hcfacts
      have hsib : ∀ s, 0 < s → s < len → (s - 1) / 2 = hole → s ≠ c →
          (a.getD s dSI).1 ≤ (a.getD c dSI).1 := by
        intro s hs hslen hspar hsne
        have hs2 : s = 2 * (hole + 1) - 1 ∨ s = 2 * (hole + 1) := by omega
        by_cases hcmp : (a.getD (2 * (hole + 1)) dSI).1 < (a.getD (2 * (hole + 1) - 1) dSI).1
        · have hceq : c = 2 * (hole + 1) - 1 := by rw [hcdef, if_pos hcmp]
          have hseq : s = 2 * (hole + 1) := by omega
          rw [hseq, hceq]
          exact le_of_lt hcmp
        · have hceq : c = 2 * (hole + 1) := by rw [hcdef, if_neg hcmp]
          have hseq : s = 2 * (hole + 1) - 1 := by omega
          rw [hseq, hceq]
          exact not_lt.mp hcmp
      have hmain := ih (a.set hole (a.getD c dSI)) c len
        (by rw [List.length_set]; exact hlen) (by omega) hclen
        (by
          -- parent bound away from the new hole
          intro i hi hilen hne hpne
          by_cases hpari : (i - 1) / 2 = hole
          · -- i is a child of the old hole, hence the sibling of c
            have hinh : i ≠ hole := by omega
            rw [getD_set_ne a hole i _ dSI (fun h => hinh h.symm), hpari,
              getD_set_self a hole _ dSI (by omega)]
            exact hsib i hi hilen hpari hne
          · by_cases hieq : i = hole
            · -- the old hole now holds the moved-up child value
              have h0 : 0 < hole := hieq ▸ hi
              have hphne : (hole - 1) / 2 ≠ hole := by omega
              rw [hieq, getD_set_self a hole _ dSI (by omega),
                getD_set_ne a hole ((hole - 1) / 2) _ dSI (by omega)]
              exact hC c (by omega) hclen hcpar h0
            · rw [getD_set_ne a hole i _ dSI (fun h => hieq h.symm),
                getD_set_ne a hole ((i - 1) / 2) _ dSI (fun h => hpari h.symm)]
              exact hA i hi hilen hieq hpari)
        (by
          -- children of the new hole are bounded by its parent (the old hole)
          intro i hi hilen hpari _
          have hinh : i ≠ hole := by omega
          rw [getD_set_ne a hole i _ dSI (fun h => hinh h.symm), hcpar,
            getD_set_self a hole _ dSI (by omega)]
          have := hA i hi hilen hinh (by omega)
          rw [hpari] at this
          exact this)
      rw [hstep]
      refine ⟨⟨?_, hmain.1.2.1, hmain.1.2.2⟩, hmain.2.1, hmain.2.2⟩
      rw [hmain.1.1, List.length_set]
    · have hstep : holeLoopF (fuel + 1) a hole len = (a, hole) := by
        rw [holeLoopF, if_neg hg]
      rw [hstep]
      exact ⟨⟨rfl, hlt, hg⟩, hA, hC⟩

/-- `__adjust_heap` restores the heap property when the root value has been
removed (its slot treated as a hole) and `v` is to be re-inserted. -/
theorem adjustHeap_isHeap (a : List SI) (len : ℕ) (v : SI)
    (hlen : len = a.length) (h1 : 1 ≤ len)
    (hA0 : ∀ i, 0 < i → i < len → (a.getD i dSI).1 ≤ (a.getD ((i - 1) / 2) dSI).1) :
    IsHeap (adjustHeap a len v) := by
  obtain ⟨⟨hrlen, hr2, hrng⟩, hrA, hrC⟩ :=
    holeLoopF_invariant len a 0 len hlen (by omega) (by omega)
      (fun i hi hilen _ _ => hA0 i hi hilen)
      (fun i _ _ _ h0 => absurd h0 (lt_irrefl 0))
  set r := holeLoopF len a 0 len with hrdef
  unfold adjustHeap
  dsimp only
  rw [← hrdef]
  split
  · next hcase =>
    obtain ⟨heven, hr2e⟩ := hcase
    have hlen2 : 2 ≤ len := by omega
    have hidx : 2 * (r.2 + 1) - 1 = len - 1 := by omega
    rw [hidx]
    apply siftUpF_isHeap _ _ _ v (le_refl _)
      (by rw [List.length_set, hrlen]; omega)
    · intro i hi hilen hne hpne
      rw [List.length_set, hrlen, ← hlen] at hilen
      by_cases hieq : i = r.2
      · have h0 : 0 < r.2 := hieq ▸ hi
        rw [hieq, getD_set_self r.1 r.2 _ dSI (by rw [hrlen]; omega),
          getD_set_ne r.1 r.2 ((r.2 - 1) / 2) _ dSI (by omega)]
        exact hrC (len - 1) (by omega) (by omega) (by omega) h0
      · by_cases hpari : (i - 1) / 2 = r.2
        · exfalso
          omega
        · rw [getD_set_ne r.1 r.2 i _ dSI (fun h => hieq h.symm),
            getD_set_ne r.1 r.2 ((i - 1) / 2) _ dSI (fun h => hpari h.symm)]
          exact hrA i hi hilen hieq hpari
    · intro i hi hilen hpari
      rw [List.length_set, hrlen, ← hlen] at hilen
      exfalso
      omega
  · next hcase =>
    have hnoch : len ≤ 2 * r.2 + 1 := by
      by_cases he : len % 2 = 0
      · have hne2 : r.2 ≠ (len - 2) / 2 := fun h => hcase ⟨he, h⟩
        omega
      · omega
    apply siftUpF_isHeap _ _ _ v (le_refl _) (by rw [hrlen]; omega)
    · intro i hi hilen hne hpne
      rw [hrlen, ← hlen] at hilen
      exact hrA i hi hilen hne hpne
    · intro i hi hilen hpari
      rw [hrlen, ← hlen] at hilen
      exfalso
      omega

theorem popHeap_isHeap (a : List SI) (h : IsHeap a) : IsHeap (popHeap a) := by
  unfold popHeap
  by_cases h1 : a.length ≤ 1
  · rw [if_pos h1]
    intro i hi hilen
    simp at hilen
  · rw [if_neg h1]
    apply adjustHeap_isHeap a.dropLast (a.length - 1) _ (by rw [List.length_dropLast])
      (by omega)
    intro i hi hilen
    rw [getD_dropLast a i dSI (by omega), getD_dropLast a ((i - 1) / 2) dSI (by omega)]
    exact h i hi (by omega)

theorem isHeap_le_root (a : List SI) (h : IsHeap a) :
    ∀ i, i < a.length → (a.getD i dSI).1 ≤ (a.getD 0 dSI).1 := by
  intro i
  induction i using Nat.strong_induction_on with
  | _ i ih =>
    intro hilen
    rcases Nat.eq_zero_or_pos i with h0 | h0
    · subst h0
      exact le_refl _
    · exact le_trans (h i h0 hilen) (ih ((i - 1) / 2) (by omega) (by omega))

theorem exists_getD_of_mem (a : List SI) (x : SI) (hx : x ∈ a) :
    ∃ j, j < a.length ∧ a.getD j dSI = x := by
  rcases List.mem_iff_getElem.mp hx with ⟨n, hn, he⟩
  refine ⟨n, hn, ?_⟩
  rw [List.getD_eq_getElem?_getD, List.getElem?_eq_getElem hn]
  simpa using he

/-- The popped sequence of a binary max-heap is non-increasing in score. -/
theorem heapPops_chain (k : ℕ) : ∀ a : List SI, IsHeap a → k ≤ a.length →
    List.Chain' (fun x y => y.1 ≤ x.1) (heapPops a k) := by
  induction k with
  | zero => intro a _ _; simp [heapPops]
  | succ k ih =>
    intro a ha hk
    rw [show heapPops a (k + 1) = heapTop a :: heapPops (popHeap a) k from rfl]
    rw [List.chain'_cons']
    constructor
    · intro y hy
      match k with
      | 0 => simp [heapPops] at hy
      | k' + 1 =>
        rw [show (heapPops (popHeap a) (k' + 1)).head? = some (heapTop (popHeap a))
          from rfl] at hy
        have hy2 : y = heapTop (popHeap a) := (by simpa using hy : _ = y).symm
        subst hy2
        have ha2 : 2 ≤ a.length := by omega
        have hplen : (popHeap a).length = a.length - 1 := popHeap_length a ha2
        have hne : 0 < (popHeap a).length := by omega
        have hmem2 := mem_popHeap a _ ha2 (getD_mem (popHeap a) 0 dSI hne)
        obtain ⟨j, hj, hje⟩ := exists_getD_of_mem a _ hmem2
        calc (heapTop (popHeap a)).1 = ((popHeap a).getD 0 dSI).1 := rfl
          _ = (a.getD j dSI).1 := by rw [hje]
          _ ≤ (a.getD 0 dSI).1 := isHeap_le_root a ha j hj
    · apply ih (popHeap a) (popHeap_isHeap a ha)
      match k with
      | 0 => exact Nat.zero_le _
      | k' + 1 =>
        rw [popHeap_length a (by omega)]
        omega

/-- Claim C1 as amended: the per-batch top-2K selection emits its
`2 * num_beams` candidates in non-increasing score order; equal-score
candidates appear in the deterministic pop order of the binary max-heap
(libstdc++ `push_heap`/`pop_heap`), which is not in general
`(batch_beam_index, token_id)` ascending; the output remains a deterministic
function of the input scores. -/
theorem beam_select_top_sorted (scores : List ℚ) (numBeams vocabSize : ℕ)
    (h2k : 2 * numBeams ≤ scores.length) :
    (beamSelectTopBatch scores numBeams vocabSize).length = 2 * numBeams ∧
    List.Chain' (fun x y => y.1 ≤ x.1) (beamSelectTopBatch scores numBeams vocabSize) := by
  have hhlen : (heapify (candList scores)).length = scores.length := by
    rw [heapify_length]
    unfold candList
    rw [List.length_map, List.enum_length]
  constructor
  · unfold beamSelectTopBatch
    rw [List.length_map, heapPops_length]
  · unfold beamSelectTopBatch
    rw [List.chain'_map]
    exact heapPops_chain (2 * numBeams) (heapify (candList scores))
      (heapify_isHeap _) (by rw [hhlen]; exact h2k)

/-- Witness for the amended C1 at scores `[3, 1, 4, 1]` with `num_beams = 2`,
`vocab_size = 2`. -/
theorem beam_select_top_sorted_witness :
    (beamSelectTopBatch [(3 : ℚ), 1, 4, 1] 2 2).length = 2 * 2 ∧
    List.Chain' (fun x y => y.1 ≤ x.1) (beamSelectTopBatch [(3 : ℚ), 1, 4, 1] 2 2) :=
  beam_select_top_sorted [(3 : ℚ), 1, 4, 1] 2 2 (by decide)

/-- Claim C1, counterexample: a batch with `num_beams = 2`, `vocab_size = 3`
whose six cumulative candidate scores are all equal (uniform logits give
every candidate the same log-softmax value, and equal beam scores keep them
equal).  The heap yields the flattened indices in the order 0, 2, 5, 4, so
the selected candidates are `(beam, token)` = (0,0), (0,2), (1,2), (1,1):
the equal-score pair (1,2) precedes (1,1), which is not
`(batch_beam_index, token_id)` ascending. -/
theorem beam_select_top_tie_not_ascending :
    beamSelectTopBatch [0, 0, 0, 0, 0, 0] 2 3 =
      [(0, 0, 0), (0, 0, 2), (0, 1, 2), (0, 1, 1)] ∧
    ¬ tieAscending (beamSelectTopBatch [0, 0, 0, 0, 0, 0] 2 3) :=
  ⟨by decide, by decide⟩

end SearchCpu
